import Mathlib

/-
Verification development for the token-bounded hierarchical chunker of the
doc_parser repository.  The definitions below are a shallow embedding of
`src/genon/preprocessor/facade/intelligent_processor_law.py`
(`HierarchicalChunker`, `HybridChunker`, `DocumentProcessor.__call__`) and of
`HybridChunker._split_using_plain_text` from
`src/doc_preprocessors/삼성증권/문서생성_범용에이전트_ocr.py`.

Conventions of the embedding:
  * Python strings are Lean `String`s; `len` is `String.length`,
    `'\n'.join` is `String.intercalate "\n"`, `str.strip()` is `String.trim`.
  * The black-box tokenizer is a parameter `tok : String → Option (List String)`;
    `none` models `tokenizer.tokenize` raising an exception for that buffer.
  * Python dicts keyed by heading level are association lists kept sorted by
    key and with unique keys (`HM`).  Every map the pipeline builds starts from
    the empty dict and is only modified through `hmSet` / `hmEraseAbove`, which
    keep this canonical form, so structural equality of `HM` values coincides
    with Python dict equality and iteration over `hmSortedKeys` coincides with
    `sorted(d.keys())`.
-/

namespace DocParser

/-! ## Python string helpers -/

/-- Split a character list at every occurrence of characters satisfying `p`,
keeping empty segments (the semantics of Python `str.split(sep)`). -/
def splitCharsP (p : Char → Bool) : List Char → List (List Char)
  | [] => [[]]
  | c :: cs =>
    let r := splitCharsP p cs
    if p c then [] :: r
    else
      match r with
      | h :: t => (c :: h) :: t
      | [] => [[c]]

/-- Python `text.split(sep)` for a single separator character. -/
def pySplitOn (sep : Char) (s : String) : List String :=
  (splitCharsP (· = sep) s.toList).map fun l => ⟨l⟩

/-- Python `text.split()`: split on whitespace runs, dropping empty pieces. -/
def pyWords (s : String) : List String :=
  ((splitCharsP Char.isWhitespace s.toList).filter (· ≠ [])).map fun l => ⟨l⟩

/-- Insert a key into an ascending list of keys, keeping it ascending. -/
def insertKeyAsc (k : Nat) : List Nat → List Nat
  | [] => [k]
  | x :: xs => if k ≤ x then k :: x :: xs else x :: insertKeyAsc k xs

/-- Python `sorted(keys)`. -/
def sortKeysAsc (ks : List Nat) : List Nat := ks.foldr insertKeyAsc []

/-! ## Heading-level dictionaries -/

/-- A Python `dict[int, str]` mapping heading level to heading text,
represented canonically: ascending keys, no duplicates. -/
abbrev HM := List (Nat × String)

/-- Dict lookup `d.get(k)`. -/
def hmLookup (m : HM) (k : Nat) : Option String :=
  match m.find? (fun p => p.1 = k) with
  | some p => some p.2
  | none => none

/-- Dict update `d[k] = v`, keeping the canonical sorted form. -/
def hmSet (k : Nat) (v : String) : HM → HM
  | [] => [(k, v)]
  | (k', v') :: t =>
    if k < k' then (k, v) :: (k', v') :: t
    else if k = k' then (k, v) :: t
    else (k', v') :: hmSet k v t

/-- Delete every entry whose key is strictly greater than `lvl`
(the `keys_to_del` loops of the flattener). -/
def hmEraseAbove (lvl : Nat) (m : HM) : HM := m.filter fun p => p.1 ≤ lvl

/-- Python `max(d.keys(), default=-1)`, as an integer. -/
def hmMaxKey (m : HM) : Int := m.foldr (fun p acc => max (p.1 : Int) acc) (-1)

/-- Python `sorted(d.keys())`. -/
def hmSortedKeys (m : HM) : List Nat := sortKeysAsc (m.map Prod.fst)

/-! ## Document items

`DocItem` variants that the chunker dispatches on.  `text` covers `TextItem`,
`ListItem` and `CodeItem` (the label distinguishes `TITLE`, `SECTION_HEADER`
and ordinary text); `sectionHeader` is `SectionHeaderItem` with its own level.
`table` carries the result of `export_to_markdown` (`none` models the call
raising) and the optional `data.table_cells` cell texts; docling `TableItem`
and `PictureItem` have no `text` attribute, so `getattr(item, "text", "")`
yields `""` for them. -/

inductive TLabel
  | title
  | secHeader
  | plain
  | listItem
  | codeItem
  deriving DecidableEq, Repr

inductive Item
  | text (ref : Nat) (label : TLabel) (txt : String) (orig : String)
  | sectionHeader (ref : Nat) (level : Nat) (txt : String) (orig : String)
  | table (ref : Nat) (md : Option String) (cells : Option (List String))
  | picture (ref : Nat)
  deriving DecidableEq, Repr

namespace Item

/-- `item.self_ref`. -/
def ref : Item → Nat
  | .text r _ _ _ => r
  | .sectionHeader r _ _ _ => r
  | .table r _ _ => r
  | .picture r => r

/-- `getattr(item, "text", "")`. -/
def textAttr : Item → String
  | .text _ _ t _ => t
  | .sectionHeader _ _ t _ => t
  | _ => ""

/-- `item.orig` for the item kinds that have it. -/
def origAttr : Item → String
  | .text _ _ _ o => o
  | .sectionHeader _ _ _ o => o
  | _ => ""

/-- `HybridChunker._get_section_header_level`: `SectionHeaderItem.level`,
`0` for `TITLE`-labelled text, `1` for `SECTION_HEADER`-labelled text,
`None` otherwise.  The flattener computes the same level at its lines 153-157. -/
def headerLevel : Item → Option Nat
  | .sectionHeader _ l _ _ => some l
  | .text _ .title _ _ => some 0
  | .text _ .secHeader _ _ => some 1
  | _ => none

/-- `HybridChunker._is_section_header` (same item classes as the flattener's
section-header branch). -/
def isSH (it : Item) : Bool := (headerLevel it).isSome

end Item

/-! ## Tree flattener (`HierarchicalChunker.chunk`)

`HierarchicalChunker` is instantiated with its default `merge_list_items =
False` (line 252 of the source), so the list-item buffering branch is dead and
every item is emitted individually, in document order, paired with copies of
the two running heading dicts.  Tables reachable from `dl_doc.tables` whose
`self_ref` was never seen by `iterate_items` are then inserted one by one at
position 0, each with empty header dicts. -/

structure Flat where
  item : Item
  snap : HM
  snapS : HM
  deriving DecidableEq, Repr

/-- An entry of the `dl_doc.tables` registry (always a `TableItem`). -/
structure TableRec where
  ref : Nat
  md : Option String
  cells : Option (List String)
  deriving DecidableEq, Repr

structure Doc where
  items : List Item
  tables : List TableRec
  deriving DecidableEq, Repr

/-- One step of the running heading dict: on a heading of level `L` set
`d[L] = txt` and then delete all keys `> L`; otherwise leave the dict alone. -/
def snapUpd (valOf : Item → String) (m : HM) (it : Item) : HM :=
  match it.headerLevel with
  | some l => hmEraseAbove l (hmSet l (valOf it) m)
  | none => m

/-- Main traversal of `HierarchicalChunker.chunk`: emit every item with the
current header dicts (updated first when the item is a heading). -/
def mainFlat (cur curS : HM) : List Item → List Flat
  | [] => []
  | it :: rest =>
    let cur' := snapUpd Item.textAttr cur it
    let curS' := snapUpd Item.origAttr curS it
    ⟨it, cur', curS'⟩ :: mainFlat cur' curS' rest

/-- Tables of the registry whose `self_ref` the traversal never recorded. -/
def missingTables (d : Doc) : List TableRec :=
  d.tables.filter fun t => t.ref ∉ d.items.map Item.ref

/-- A missing table inserted at position 0 with empty header dicts. -/
def tblFlat (t : TableRec) : Flat := ⟨.table t.ref t.md t.cells, [], []⟩

/-- The flattened `(item, header_info, header_short_info)` sequence, including
the `insert(0, …)` loop for missing tables. -/
def flatten (d : Doc) : List Flat :=
  (missingTables d).foldl (fun acc t => tblFlat t :: acc) (mainFlat [] [] d.items)

/-! ## Token counter (`HybridChunker._count_tokens`)

The fallback `int(len(buf.split()) * 1.3)` truncates toward zero; for the
word counts arising here (far below `2^50`) the float product `n * 1.3`
always truncates to `⌊13·n/10⌋`, which is how it is embedded. -/

/-- Count one buffer: tokenizer length on success, word-count estimate on
failure. -/
def bufTokens (tok : String → Option (List String)) (buf : String) : Nat :=
  match tok buf with
  | some ts => ts.length
  | none => 13 * (pyWords buf).length / 10

/-- The accumulation loop of `_count_tokens`. -/
def countTokensGo (tok : String → Option (List String)) :
    List String → String → Nat → Nat
  | [], cur, total => if cur ≠ "" then total + bufTokens tok cur else total
  | line :: rest, cur, total =>
    let temp := if cur ≠ "" then cur ++ "\n" ++ line else line
    if temp.length ≤ 300 then countTokensGo tok rest temp total
    else
      let total' := if cur ≠ "" then total + bufTokens tok cur else total
      countTokensGo tok rest line total'

/-- `HybridChunker._count_tokens`. -/
def countTokens (tok : String → Option (List String)) (text : String) : Nat :=
  if text = "" then 0
  else countTokensGo tok (pySplitOn '\n' text) "" 0

/-! ## Text generation (`_extract_table_text`,
`_generate_text_from_items_with_headers`, `_extract_used_headers`,
`_generate_section_text_with_heading`).  `self.delim` is the `BaseChunker`
default `"\n"`. -/

/-- `HybridChunker._extract_table_text`: markdown rendering if it succeeded
and is non-blank, else the joined stripped cell texts, else `""` (docling
`TableItem` has no `text` attribute, so the last `hasattr` fallback yields
nothing). -/
def extractTableText (md : Option String) (cells : Option (List String)) : String :=
  match md with
  | some t =>
    if t ≠ "" ∧ t.trim ≠ "" then t
    else extractCellsText cells
  | none => extractCellsText cells
where
  extractCellsText : Option (List String) → String
  | some cs =>
    let ts := cs.filterMap fun c => if c ≠ "" ∧ c.trim ≠ "" then some c.trim else none
    if ts ≠ [] then String.intercalate " " ts else ""
  | none => ""

/-- The inner header-delta computation of
`_generate_text_from_items_with_headers`: find the smallest level of
`item_headers` whose entry is absent from or different in
`current_section_headers`, then render all strictly lower levels' texts
followed by an empty string at that level. -/
def headersToAdd (cur ih : HM) : List String :=
  match (hmSortedKeys ih).find? (fun l => hmLookup cur l ≠ hmLookup ih l) with
  | none => []
  | some lvl =>
    (hmSortedKeys ih).filterMap fun l =>
      if l < lvl then hmLookup ih l
      else if l = lvl then some ""
      else none

/-- Item loop of `_generate_text_from_items_with_headers`, accumulating
`text_parts`; the per-item header dict is the short-header snapshot the
caller passes alongside each item. -/
def genTextGo : List Flat → HM → List String → List String
  | [], _, parts => parts
  | f :: rest, cur, parts =>
    let ih := f.snapS
    let parts₁ :=
      if ih ≠ cur then
        let hta := headersToAdd cur ih
        if hta ≠ [] then
          let ht := String.intercalate ", " hta
          if ht ∉ parts then parts ++ [ht] else parts
        else parts
      else parts
    let cur₁ := if ih ≠ cur then ih else cur
    let parts₂ :=
      match f.item with
      | .table _ md cells =>
        let tt := extractTableText md cells
        if tt ≠ "" then parts₁ ++ [tt] else parts₁
      | .picture _ => parts₁ ++ [""]
      | it =>
        if it.textAttr ≠ "" then
          if it.textAttr ∉ parts₁ then parts₁ ++ [it.textAttr] else parts₁
        else parts₁
    genTextGo rest cur₁ parts₂

/-- `HybridChunker._generate_text_from_items_with_headers`. -/
def generateTextFromItems (fs : List Flat) : String :=
  String.intercalate "\n" (genTextGo fs [] [])

/-- Inner loop of `HybridChunker._extract_used_headers`: walk the dicts in
order, levels sorted within each dict, appending first-seen non-empty texts. -/
def usedHeadersGo : List HM → List String → List String
  | [], acc => acc
  | m :: rest, acc =>
    let acc' := (hmSortedKeys m).foldl
      (fun a l =>
        match hmLookup m l with
        | some t => if t ≠ "" ∧ t ∉ a then a ++ [t] else a
        | none => a) acc
    usedHeadersGo rest acc'

/-- `HybridChunker._extract_used_headers`. -/
def extractUsedHeaders (hs : List HM) : Option (List String) :=
  if hs = [] then none
  else
    let all := usedHeadersGo hs []
    if all ≠ [] then some all else none

/-- `HybridChunker._generate_section_text_with_heading`: prefix the section's
rendered text with the comma-joined non-empty headers of the first item's
short-header dict. -/
def genSectionText (fs : List Flat) : String :=
  let headingText :=
    match fs.head? with
    | some f =>
      if f.snapS ≠ [] then
        let merged := f.snapS.filter fun p => p.2 ≠ ""
        if merged ≠ [] then
          String.intercalate ", " ((hmSortedKeys merged).filterMap (hmLookup merged))
        else ""
      else ""
    | none => ""
  let sectionText := generateTextFromItems fs
  if headingText ≠ "" then headingText ++ ", " ++ sectionText else sectionText

/-! ## Stage 1: section segmentation (`_split_document_by_tokens` 1단계) -/

/-- Grouping loop: a section header closes the current section (if any) and
opens a new one; other items attach to the current section. -/
def segGo (cur : List Flat) : List Flat → List (List Flat)
  | [] => if cur ≠ [] then [cur] else []
  | f :: rest =>
    if f.item.isSH then (if cur ≠ [] then [cur] else []) ++ segGo [f] rest
    else segGo (cur ++ [f]) rest

/-- Sections of the flattened sequence. -/
def segment (fs : List Flat) : List (List Flat) := segGo [] fs

/-! ## Stage 2: section texts -/

/-- A section after 2단계: its rendered text plus the parallel
`(items, header_infos, header_short_infos)` triple, kept as a `List Flat`. -/
structure SecT where
  text : String
  flats : List Flat
  deriving DecidableEq, Repr

def mkSec (g : List Flat) : SecT := ⟨genSectionText g, g⟩

/-- The section list handed to the orphan merger. -/
def preSections (d : Doc) : List SecT := (segment (flatten d)).map mkSec

/-! ## Stage 3: orphan-heading merger (`_split_document_by_tokens` 3단계) -/

/-- `get_header_level(header_infos, first=…)` over a section's per-item
text-header dicts. -/
def getHL (flats : List Flat) (first : Bool) : Int :=
  match (if first then flats.head? else flats.getLast?) with
  | some f => hmMaxKey f.snap
  | none => -1

/-- The merge test of 3단계 (the conjunction of the negated `continue`
conditions): exactly one item, which is a section header, whose joined
`getattr(item, "text", "")` is at most 30 characters, and not
`0 ≤ next_level < current_level`. -/
def foldCond (s n : SecT) : Prop :=
  s.flats.length = 1 ∧
  Option.any (fun f => f.item.isSH) s.flats.head? = true ∧
  ¬ (String.join (s.flats.map (fun f => f.item.textAttr))).length > 30 ∧
  ¬ (0 ≤ getHL n.flats true ∧ getHL n.flats true < getHL s.flats false)

instance (s n : SecT) : Decidable (foldCond s n) := by
  unfold foldCond
  exact inferInstance

/-- Folding section `i` into section `i+1`: texts joined by a newline, items
and header dicts concatenated. -/
def foldSec (s n : SecT) : SecT := ⟨s.text ++ "\n" ++ n.text, s.flats ++ n.flats⟩

/-- The backward scan of 3단계.  The Python loop runs `i` from `len-2` down to
`0`, so when index `i` is examined everything to its right is already final;
that is exactly this right-to-left recursion. -/
def mergeOrphans : List SecT → List SecT
  | [] => []
  | [s] => [s]
  | s :: s' :: rest =>
    match mergeOrphans (s' :: rest) with
    | [] => [s]
    | n :: tail => if foldCond s n then foldSec s n :: tail else s :: n :: tail

/-- The fully prepared section list (stages 1-3) fed to the token packer. -/
def sectionsOfDoc (d : Doc) : List SecT := mergeOrphans (preSections d)

/-! ## Stage 4: token-bounded packing (`_split_document_by_tokens` 4단계) -/

structure Chunk where
  text : String
  headings : Option (List String)
  items : List Item
  deriving DecidableEq, Repr

/-- Accumulator state: `merged_texts` and the parallel
`(merged_items, merged_header_infos, merged_header_short_infos)` triple. -/
structure PackState where
  texts : List String
  flats : List Flat
  deriving DecidableEq, Repr

/-- `get_current_chunk`: `None` on an empty accumulator, otherwise the chunk
with newline-joined text and the headers drawn from the short-header dicts. -/
def getCurrentChunk (st : PackState) : Option Chunk :=
  if st.texts = [] then none
  else some ⟨String.intercalate "\n" st.texts,
             extractUsedHeaders (st.flats.map Flat.snapS),
             st.flats.map Flat.item⟩

/-- The packing loop over sections.  A new chunk starts when the candidate
token count exceeds the budget with a non-empty accumulator, or when
`0 ≤ section_level < merged_level` computed from the text-header dicts. -/
def packGo (tok : String → Option (List String)) (maxT : Nat) :
    List SecT → PackState → List Chunk
  | [], st =>
    match getCurrentChunk st with
    | some c => [c]
    | none => []
  | s :: rest, st =>
    let testTokens := countTokens tok (String.intercalate "\n" (st.texts ++ [s.text]))
    let sectionLevel := getHL s.flats true
    let mergedLevel := getHL st.flats false
    if (testTokens > maxT ∧ st.texts.length > 0) ∨
       (0 ≤ sectionLevel ∧ sectionLevel < mergedLevel) then
      (match getCurrentChunk st with
       | some c => [c]
       | none => []) ++ packGo tok maxT rest ⟨[s.text], s.flats⟩
    else
      packGo tok maxT rest ⟨st.texts ++ [s.text], st.flats ++ s.flats⟩

def pack (tok : String → Option (List String)) (maxT : Nat) (secs : List SecT) :
    List Chunk :=
  packGo tok maxT secs ⟨[], []⟩

/-- `HybridChunker._split_document_by_tokens` on the flattened sequence. -/
def splitDocumentByTokens (tok : String → Option (List String)) (maxT : Nat)
    (fs : List Flat) : List Chunk :=
  if fs = [] then []
  else pack tok maxT (mergeOrphans ((segment fs).map mkSec))

/-- `HybridChunker.chunk`: run the hierarchical flattener, return nothing when
it yields no chunk (empty item list), otherwise split by tokens. -/
def hybridChunk (tok : String → Option (List String)) (maxT : Nat) (d : Doc) :
    List Chunk :=
  let fs := flatten d
  if fs = [] then [] else splitDocumentByTokens tok maxT fs

/-! ## `DocumentProcessor.__call__` (chunking-relevant part, C8) -/

/-- The synthesized `document.add_text(label=TEXT, text=".")` item. -/
def placeholderItem : Item := .text 1000000 .plain "." "."

/-- `has_text_items`: some text-like item with non-blank text, or a table
whose (truthy) `data.table_cells` is empty. -/
def hasTextItems (d : Doc) : Bool :=
  d.items.any fun it =>
    match it with
    | .text _ _ t _ => t ≠ "" ∧ t.trim ≠ ""
    | .sectionHeader _ _ t _ => t ≠ "" ∧ t.trim ≠ ""
    | .table _ _ cells => cells = some []
    | .picture _ => false

/-- Chunk production of `DocumentProcessor.__call__`: chunk directly when the
document has usable text, otherwise append the placeholder item first.
`split_documents` fixes `max_tokens = 1000`. -/
def processDocument (tok : String → Option (List String)) (d : Doc) : List Chunk :=
  if hasTextItems d then hybridChunk tok 1000 d
  else hybridChunk tok 1000 ⟨d.items ++ [placeholderItem], d.tables⟩

/-! ## Specification-side definitions

These definitions restate parts of the pipeline in the words of the
specification (levels read off the items themselves rather than off the
header dicts; buffer lists made explicit).  The claims compare them with the
source-side definitions above. -/

/-- The items of a run of flats. -/
def secItems (fs : List Flat) : List Item := fs.map Flat.item

/-- Spec: "the first heading level inside this section, or −1 if none". -/
def firstHeadingLevelI : List Item → Int
  | [] => -1
  | it :: rest =>
    match it.headerLevel with
    | some l => (l : Int)
    | none => firstHeadingLevelI rest

/-- Spec: "the deepest (numerically largest) heading level", `-1` if none. -/
def deepestHeadingI (its : List Item) : Int :=
  its.foldr
    (fun it acc =>
      match it.headerLevel with
      | some l => max (l : Int) acc
      | none => acc) (-1)

/-- The packing loop exactly as the specification words it: a new chunk starts
iff the candidate token count exceeds the budget with a non-empty accumulator,
or `0 ≤ current_section_level < accumulated_level` with the levels read off
the items (first heading level of the section; deepest heading level in the
accumulator). -/
def packClaimGo (tok : String → Option (List String)) (maxT : Nat) :
    List SecT → PackState → List Chunk
  | [], st =>
    match getCurrentChunk st with
    | some c => [c]
    | none => []
  | s :: rest, st =>
    let candidateTokens :=
      countTokens tok (String.intercalate "\n" (st.texts ++ [s.text]))
    let currentSectionLevel := firstHeadingLevelI (secItems s.flats)
    let accumulatedLevel := deepestHeadingI (secItems st.flats)
    if (candidateTokens > maxT ∧ st.texts.length > 0) ∨
       (0 ≤ currentSectionLevel ∧ currentSectionLevel < accumulatedLevel) then
      (match getCurrentChunk st with
       | some c => [c]
       | none => []) ++ packClaimGo tok maxT rest ⟨[s.text], s.flats⟩
    else
      packClaimGo tok maxT rest ⟨st.texts ++ [s.text], st.flats ++ s.flats⟩

def packClaim (tok : String → Option (List String)) (maxT : Nat)
    (secs : List SecT) : List Chunk :=
  packClaimGo tok maxT secs ⟨[], []⟩

/-- Claim C4's merge test as frozen (strict `< 30` threshold), with the levels
read off the items: `current_level` is the orphan section's heading level and
`next_level` the first heading level inside the following section. -/
def foldCondStrict (s n : SecT) : Prop :=
  s.flats.length = 1 ∧
  Option.any (fun f => f.item.isSH) s.flats.head? = true ∧
  (String.join (s.flats.map (fun f => f.item.textAttr))).length < 30 ∧
  ¬ (0 ≤ firstHeadingLevelI (secItems n.flats) ∧
     firstHeadingLevelI (secItems n.flats) < firstHeadingLevelI (secItems s.flats))

instance (s n : SecT) : Decidable (foldCondStrict s n) := by
  unfold foldCondStrict
  exact inferInstance

/-- The amended merge test: identical but with the threshold the code
implements (`length ≤ 30`, i.e. fold at exactly 30 characters too). -/
def foldCondAmended (s n : SecT) : Prop :=
  s.flats.length = 1 ∧
  Option.any (fun f => f.item.isSH) s.flats.head? = true ∧
  (String.join (s.flats.map (fun f => f.item.textAttr))).length ≤ 30 ∧
  ¬ (0 ≤ firstHeadingLevelI (secItems n.flats) ∧
     firstHeadingLevelI (secItems n.flats) < firstHeadingLevelI (secItems s.flats))

instance (s n : SecT) : Decidable (foldCondAmended s n) := by
  unfold foldCondAmended
  exact inferInstance

/-- The backward orphan scan, parameterized by the merge test. -/
def mergeOrphansWith (p : SecT → SecT → Prop) [DecidableRel p] :
    List SecT → List SecT
  | [] => []
  | [s] => [s]
  | s :: s' :: rest =>
    match mergeOrphansWith p (s' :: rest) with
    | [] => [s]
    | n :: tail => if p s n then foldSec s n :: tail else s :: n :: tail

/-- The Orphan-Heading Merger as claim C4 words it (strict threshold). -/
def mergeOrphansStrict : List SecT → List SecT := mergeOrphansWith foldCondStrict

/-- The Orphan-Heading Merger with the amended (`≤ 30`) threshold. -/
def mergeOrphansAmended : List SecT → List SecT := mergeOrphansWith foldCondAmended

/-- Spec-side buffer list of the token counter: greedily accumulate lines into
buffers of joined length at most 300, a longer single line standing alone. -/
def tokenBuffersGo : List String → String → List String
  | [], cur => if cur ≠ "" then [cur] else []
  | line :: rest, cur =>
    let temp := if cur ≠ "" then cur ++ "\n" ++ line else line
    if temp.length ≤ 300 then tokenBuffersGo rest temp
    else (if cur ≠ "" then [cur] else []) ++ tokenBuffersGo rest line

def tokenBuffers (text : String) : List String :=
  if text = "" then [] else tokenBuffersGo (pySplitOn '\n' text) ""

/-! ## Invariants used by the proofs -/

/-- The context level: the level of the most recent heading, `-1` initially. -/
def ctxUpd (c : Int) (it : Item) : Int :=
  match it.headerLevel with
  | some l => (l : Int)
  | none => c

/-- Every snapshot in the list equals the running text-header dict, which
starts at `m` and evolves by `snapUpd` — the flattener's execution trace. -/
def ChainedS (m : HM) : List Flat → Prop
  | [] => True
  | f :: rest =>
    f.snap = snapUpd Item.textAttr m f.item ∧
    ChainedS (snapUpd Item.textAttr m f.item) rest

/-- The max-key of every snapshot equals the context level. -/
def CohFrom (c : Int) : List Flat → Prop
  | [] => True
  | f :: rest =>
    hmMaxKey f.snap = ctxUpd c f.item ∧ CohFrom (ctxUpd c f.item) rest

/-- No section header anywhere in the run. -/
def NoSH (g : List Flat) : Prop := ∀ f ∈ g, f.item.isSH = false

/-- No section header after the first element. -/
def TailNoSH : List Flat → Prop
  | [] => True
  | _ :: t => NoSH t

/-- The run starts with a section header. -/
def HeadedF (g : List Flat) : Prop :=
  ∃ f t, g = f :: t ∧ f.item.isSH = true

/-- The (code-side) first-snapshot level agrees with the (spec-side) first
heading level of the items. -/
def W1 (g : List Flat) : Prop := getHL g true = firstHeadingLevelI (secItems g)

/-- The (code-side) last-snapshot level agrees with the (spec-side) deepest
heading level of the items. -/
def W2 (g : List Flat) : Prop := getHL g false = deepestHeadingI (secItems g)

/-- Well-formedness of a pipeline section. -/
def SecOK (g : List Flat) : Prop := g ≠ [] ∧ W1 g ∧ W2 g

def SecOKt (s : SecT) : Prop := SecOK s.flats

def Headed (s : SecT) : Prop := HeadedF s.flats

/-- Packer-accumulator invariant. -/
def AccInv (st : PackState) : Prop :=
  st.texts ≠ [] ∧ getHL st.flats false = deepestHeadingI (secItems st.flats)

/-- "Not a heading of level ≤ L": any heading the item introduces is strictly
deeper than `L`. -/
def headingSafe (L : Nat) (it : Item) : Prop :=
  ∀ M, it.headerLevel = some M → L < M

/-- Context level after a run of flats. -/
def ctxList (c : Int) (g : List Flat) : Int :=
  g.foldl (fun a f => ctxUpd a f.item) c

end DocParser

/-! ## The OCR-variant chunker (`문서생성_범용에이전트_ocr.py`), claim C9 -/

namespace OcrChunker

/-- Headings/captions metadata of a `DocChunk` in the OCR-variant chunker. -/
structure MetaB where
  headings : Option (List String)
  captions : Option (List String)
  deriving DecidableEq, Repr

structure Chunk2 where
  text : String
  meta : MetaB
  deriving DecidableEq, Repr

/-- `_ChunkLengthInfo`. -/
structure ChunkLen where
  totalLen : Nat
  textLen : Nat
  otherLen : Int
  deriving DecidableEq, Repr

/-- `_doc_chunk_length`: the tokenizer is `tok2 : String → Nat`
(`len(tokenize(text))`, no failure handling in this file) and
`ser` models `BaseChunker.serialize`, external to the repository. -/
def docChunkLength (tok2 : String → Nat) (ser : Chunk2 → String) (c : Chunk2) :
    ChunkLen :=
  let textLen := tok2 c.text
  let total := tok2 (ser c)
  ⟨total, textLen, (total : Int) - textLen⟩

/-- `HybridChunker._split_using_plain_text`.  `semChunk` models the
`semchunk.chunkerify(...)` splitter, a pure external collaborator; building it
with a non-positive `chunk_size` does not raise.  When
`available_length ≤ 0` the warning branch returns the empty list. -/
def splitUsingPlainText (tok2 : String → Nat) (ser : Chunk2 → String)
    (semChunk : Int → String → List String) (maxT : Nat) (c : Chunk2) :
    List Chunk2 :=
  let lengths := docChunkLength tok2 ser c
  if lengths.totalLen ≤ maxT then [c]
  else
    let available : Int := (maxT : Int) - lengths.otherLen
    if available ≤ 0 then []
    else (semChunk available c.text).map fun s => { c with text := s }

end OcrChunker

/-! # Lemmas and claim theorems -/

namespace DocParser

/-! ## Basic lemmas about the dictionary embedding -/

theorem hmLookup_nil (k : Nat) : hmLookup [] k = none := rfl

theorem hmLookup_cons (p : Nat × String) (t : HM) (k : Nat) :
    hmLookup (p :: t) k = if p.1 = k then some p.2 else hmLookup t k := by
  by_cases h : p.1 = k <;> simp [hmLookup, List.find?, h]

theorem hmLookup_set_self (m : HM) (k : Nat) (v : String) :
    hmLookup (hmSet k v m) k = some v := by
  induction m with
  | nil => simp [hmSet, hmLookup_cons]
  | cons p t ih =>
    obtain ⟨k', v'⟩ := p
    by_cases h1 : k < k'
    · simp [hmSet, h1, hmLookup_cons]
    · by_cases h2 : k = k'
      · simp [hmSet, h1, h2, hmLookup_cons]
      · have hne : k' ≠ k := fun h => h2 h.symm
        simp [hmSet, h1, h2, hmLookup_cons, hne, ih]

theorem hmLookup_set_ne (m : HM) (k k' : Nat) (v : String) (h : k' ≠ k) :
    hmLookup (hmSet k v m) k' = hmLookup m k' := by
  have hk : k ≠ k' := fun hh => h hh.symm
  induction m with
  | nil => simp [hmSet, hmLookup_cons, hmLookup_nil, hk]
  | cons p t ih =>
    obtain ⟨a, b⟩ := p
    by_cases h1 : k < a
    · simp [hmSet, h1, hmLookup_cons, hk]
    · by_cases h2 : k = a
      · subst h2
        simp [hmSet, h1, hmLookup_cons, hk]
      · simp [hmSet, h1, h2, hmLookup_cons, ih]

theorem hmEraseAbove_cons_keep (a : Nat) (b : String) (t : HM) (lvl : Nat)
    (ha : a ≤ lvl) : hmEraseAbove lvl ((a, b) :: t) = (a, b) :: hmEraseAbove lvl t := by
  simp [hmEraseAbove, List.filter_cons, ha]

theorem hmEraseAbove_cons_drop (a : Nat) (b : String) (t : HM) (lvl : Nat)
    (ha : ¬ a ≤ lvl) : hmEraseAbove lvl ((a, b) :: t) = hmEraseAbove lvl t := by
  simp [hmEraseAbove, List.filter_cons, ha]

theorem hmLookup_eraseAbove (m : HM) (lvl k : Nat) :
    hmLookup (hmEraseAbove lvl m) k =
      if k ≤ lvl then hmLookup m k else none := by
  induction m with
  | nil => simp [hmEraseAbove, hmLookup_nil]
  | cons p t ih =>
    obtain ⟨a, b⟩ := p
    by_cases ha : a ≤ lvl
    · rw [hmEraseAbove_cons_keep a b t lvl ha, hmLookup_cons, hmLookup_cons, ih]
      by_cases hk : a = k
      · subst hk
        simp [ha]
      · simp [hk]
    · rw [hmEraseAbove_cons_drop a b t lvl ha, ih, hmLookup_cons]
      by_cases hkl : k ≤ lvl
      · have hk : ¬ (a = k) := fun hh => ha (hh ▸ hkl)
        simp [hkl, hk]
      · simp [hkl]

theorem hmMaxKey_le (m : HM) (lvl : Int) (h0 : -1 ≤ lvl)
    (h : ∀ p ∈ m, (p.1 : Int) ≤ lvl) : hmMaxKey m ≤ lvl := by
  induction m with
  | nil => simpa [hmMaxKey] using h0
  | cons p t ih =>
    simp only [hmMaxKey, List.foldr] at *
    exact max_le (h p (by simp)) (ih fun q hq => h q (by simp [hq]))

theorem le_hmMaxKey_of_mem (m : HM) (p : Nat × String) (h : p ∈ m) :
    (p.1 : Int) ≤ hmMaxKey m := by
  induction m with
  | nil => cases h
  | cons q t ih =>
    simp only [hmMaxKey, List.foldr]
    rcases List.mem_cons.mp h with h | h
    · subst h
      exact le_max_left _ _
    · exact le_trans (ih h) (le_max_right _ _)

theorem mem_hmSet_self (m : HM) (k : Nat) (v : String) : (k, v) ∈ hmSet k v m := by
  induction m with
  | nil => simp [hmSet]
  | cons p t ih =>
    obtain ⟨a, b⟩ := p
    by_cases h1 : k < a
    · simp [hmSet, h1]
    · by_cases h2 : k = a
      · simp [hmSet, h1, h2]
      · simp only [hmSet, h1, h2, if_false, if_neg h1, if_neg h2]
        exact List.mem_cons_of_mem _ ih

theorem mem_hmSet (m : HM) (k : Nat) (v : String) (q : Nat × String)
    (h : q ∈ hmSet k v m) : q = (k, v) ∨ q ∈ m := by
  induction m with
  | nil => simpa [hmSet] using h
  | cons p t ih =>
    obtain ⟨a, b⟩ := p
    by_cases h1 : k < a
    · simp [hmSet, h1] at h
      rcases h with h | h | h
      · left; simp [h]
      · right; simp [h]
      · right; simp [h]
    · by_cases h2 : k = a
      · simp [hmSet, h1, h2] at h
        rcases h with h | h
        · left; simp [h, h2]
        · right; simp [h]
      · simp [hmSet, h1, h2] at h
        rcases h with h | h
        · right; simp [h]
        · rcases ih h with h | h
          · left; exact h
          · right; simp [h]

theorem hmMaxKey_update (m : HM) (lvl : Nat) (v : String) :
    hmMaxKey (hmEraseAbove lvl (hmSet lvl v m)) = (lvl : Int) := by
  apply le_antisymm
  · apply hmMaxKey_le
    · exact le_trans (by norm_num) (Int.ofNat_nonneg lvl)
    · intro p hp
      have h2 : p.1 ≤ lvl := by simpa using List.of_mem_filter hp
      exact_mod_cast h2
  · apply le_hmMaxKey_of_mem _ (lvl, v)
    apply List.mem_filter.mpr
    exact ⟨mem_hmSet_self m lvl v, by simp⟩

theorem hmMaxKey_nil : hmMaxKey ([] : HM) = -1 := rfl

/-! ## C6: the flattener's header-snapshot invariant -/

theorem chained_mainFlat : ∀ (its : List Item) (cur curS : HM),
    ChainedS cur (mainFlat cur curS its) := by
  intro its
  induction its with
  | nil => intro cur curS; trivial
  | cons it rest ih =>
    intro cur curS
    exact ⟨rfl, ih _ _⟩

theorem chained_tablePrefix : ∀ (ts : List TableRec) (acc : List Flat),
    ChainedS [] acc →
    ChainedS [] (ts.foldl (fun a t => tblFlat t :: a) acc) := by
  intro ts
  induction ts with
  | nil => intro acc h; exact h
  | cons t ts ih =>
    intro acc h
    exact ih _ ⟨rfl, h⟩

theorem chained_flatten (d : Doc) : ChainedS [] (flatten d) :=
  chained_tablePrefix _ _ (chained_mainFlat d.items [] [])

theorem chained_split : ∀ (xs : List Flat) (m : HM) (rest : List Flat),
    ChainedS m (xs ++ rest) → ∃ m', ChainedS m' rest := by
  intro xs
  induction xs with
  | nil => intro m rest h; exact ⟨m, h⟩
  | cons f xs ih =>
    intro m rest h
    exact ih _ rest h.2

theorem hmLookup_snapUpd_preserve (valOf : Item → String) (m : HM) (it : Item)
    (L : Nat) (h : headingSafe L it) :
    hmLookup (snapUpd valOf m it) L = hmLookup m L := by
  unfold snapUpd
  cases hl : it.headerLevel with
  | none => rfl
  | some M =>
    have hLM : L < M := h M hl
    rw [hmLookup_eraseAbove, if_pos (le_of_lt hLM),
        hmLookup_set_ne _ _ _ _ (Nat.ne_of_lt hLM)]

theorem hmLookup_snapUpd_heading (valOf : Item → String) (m : HM) (it : Item)
    (L : Nat) (h : it.headerLevel = some L) :
    hmLookup (snapUpd valOf m it) L = some (valOf it) ∧
    ∀ M, L < M → hmLookup (snapUpd valOf m it) M = none := by
  unfold snapUpd
  rw [h]
  constructor
  · rw [hmLookup_eraseAbove, if_pos (le_refl L), hmLookup_set_self]
  · intro M hM
    rw [hmLookup_eraseAbove, if_neg (by omega)]

theorem chained_walk : ∀ (ys : List Flat) (m : HM) (b : Flat) (zs : List Flat)
    (L : Nat), ChainedS m (ys ++ b :: zs) →
    (∀ f ∈ ys, headingSafe L f.item) → headingSafe L b.item →
    hmLookup b.snap L = hmLookup m L := by
  intro ys
  induction ys with
  | nil =>
    intro m b zs L h _ hb
    rw [h.1, hmLookup_snapUpd_preserve _ _ _ _ hb]
  | cons f ys ih =>
    intro m b zs L h hys hb
    have h1 : hmLookup b.snap L = hmLookup (snapUpd Item.textAttr m f.item) L :=
      ih _ b zs L h.2 (fun g hg => hys g (by simp [hg])) hb
    rw [h1, hmLookup_snapUpd_preserve _ _ _ _ (hys f (by simp))]

/-- Claim C6: (a) the snapshot attached to a visited heading of level `L`
maps `L` to that heading's text and holds no entry of level `> L`;
(b) two flattened entries with no heading of level `≤ L` strictly after the
first and up to (and including) the second agree at level `L`.  Snapshots are
plain values of the embedding; the source attaches dict copies, never the
mutable dict itself. -/
theorem C6_header_snapshot_invariant (d : Doc) :
    (∀ xs f zs L, flatten d = xs ++ f :: zs → f.item.headerLevel = some L →
       hmLookup f.snap L = some f.item.textAttr ∧
       ∀ M, L < M → hmLookup f.snap M = none) ∧
    (∀ xs a ys b zs L, flatten d = xs ++ a :: (ys ++ b :: zs) →
       (∀ f ∈ ys, headingSafe L f.item) → headingSafe L b.item →
       hmLookup b.snap L = hmLookup a.snap L) := by
  have hch := chained_flatten d
  constructor
  · intro xs f zs L hsplit hlvl
    rw [hsplit] at hch
    obtain ⟨m', hm'⟩ := chained_split xs [] (f :: zs) hch
    have hsnap : f.snap = snapUpd Item.textAttr m' f.item := hm'.1
    rw [hsnap]
    exact hmLookup_snapUpd_heading _ _ _ _ hlvl
  · intro xs a ys b zs L hsplit hys hb
    rw [hsplit] at hch
    obtain ⟨m', hm'⟩ := chained_split xs [] (a :: (ys ++ b :: zs)) hch
    have hrest : ChainedS a.snap (ys ++ b :: zs) := by
      have := hm'.2
      rw [← hm'.1] at this
      exact this
    exact chained_walk ys a.snap b zs L hrest hys hb

/-- Witness for C6 on a concrete document: part (a) at the level-2 heading,
part (b) across it at level 0. -/
theorem C6_witness :
    hmLookup ([(0, "T"), (2, "S")] : HM) 2 = some "S" ∧
    hmLookup (Flat.snap ⟨.text 4 .plain "y" "y", [(0, "T"), (2, "S")], [(0, "T"), (2, "S")]⟩) 0 =
      hmLookup (Flat.snap ⟨.text 2 .plain "x" "x", [(0, "T")], [(0, "T")]⟩) 0 := by
  have hthm := C6_header_snapshot_invariant
    ⟨[.sectionHeader 1 0 "T" "T", .text 2 .plain "x" "x",
      .sectionHeader 3 2 "S" "S", .text 4 .plain "y" "y"], []⟩
  constructor
  · exact (hthm.1
      [⟨.sectionHeader 1 0 "T" "T", [(0, "T")], [(0, "T")]⟩,
       ⟨.text 2 .plain "x" "x", [(0, "T")], [(0, "T")]⟩]
      ⟨.sectionHeader 3 2 "S" "S", [(0, "T"), (2, "S")], [(0, "T"), (2, "S")]⟩
      [⟨.text 4 .plain "y" "y", [(0, "T"), (2, "S")], [(0, "T"), (2, "S")]⟩]
      2 (by decide) rfl).1
  · exact hthm.2
      [⟨.sectionHeader 1 0 "T" "T", [(0, "T")], [(0, "T")]⟩]
      ⟨.text 2 .plain "x" "x", [(0, "T")], [(0, "T")]⟩
      [⟨.sectionHeader 3 2 "S" "S", [(0, "T"), (2, "S")], [(0, "T"), (2, "S")]⟩]
      ⟨.text 4 .plain "y" "y", [(0, "T"), (2, "S")], [(0, "T"), (2, "S")]⟩
      [] 0 (by decide)
      (by
        intro f hf M hM
        simp only [List.mem_singleton] at hf
        subst hf
        simp [Item.headerLevel] at hM
        omega)
      (by
        intro M hM
        simp [Item.headerLevel] at hM)

/-! ## C2: coverage -/

theorem segGo_join : ∀ (fs cur : List Flat), (segGo cur fs).flatten = cur ++ fs := by
  intro fs
  induction fs with
  | nil =>
    intro cur
    by_cases h : cur = [] <;> simp [segGo, h]
  | cons f rest ih =>
    intro cur
    by_cases h : f.item.isSH
    · by_cases hc : cur = [] <;> simp [segGo, h, hc, ih]
    · simp [segGo, h, ih]

theorem mergeOrphans_ne_nil : ∀ (l : List SecT), l ≠ [] → mergeOrphans l ≠ [] := by
  intro l
  match l with
  | [] => intro h; exact absurd rfl h
  | [s] => intro _; simp [mergeOrphans]
  | s :: s' :: rest =>
    intro _
    unfold mergeOrphans
    cases h : mergeOrphans (s' :: rest) with
    | nil => simp
    | cons n tail => by_cases hc : foldCond s n <;> simp [hc]

theorem mergeOrphans_flats_join : ∀ (l : List SecT),
    ((mergeOrphans l).map SecT.flats).flatten = (l.map SecT.flats).flatten := by
  intro l
  match l with
  | [] => rfl
  | [s] => rfl
  | s :: s' :: rest =>
    have ih := mergeOrphans_flats_join (s' :: rest)
    unfold mergeOrphans
    cases h : mergeOrphans (s' :: rest) with
    | nil => exact absurd h (mergeOrphans_ne_nil _ (by simp))
    | cons n tail =>
      rw [h] at ih
      simp only [List.map_cons, List.flatten_cons] at ih ⊢
      by_cases hc : foldCond s n
      · simp only [hc, if_true, List.map_cons, List.flatten_cons, foldSec]
        rw [List.append_assoc, ih]
      · simp only [hc, if_false, List.map_cons, List.flatten_cons]
        rw [ih]

theorem join_secItems (l : List SecT) :
    (l.map (fun s => secItems s.flats)).flatten = secItems ((l.map SecT.flats).flatten) := by
  induction l with
  | nil => rfl
  | cons s rest ih =>
    simp only [List.map_cons, List.flatten_cons, secItems, List.map_append] at ih ⊢
    rw [ih]

theorem packGo_items (tok : String → Option (List String)) (maxT : Nat) :
    ∀ (secs : List SecT) (st : PackState),
      (st.texts = [] → st.flats = []) →
      ((packGo tok maxT secs st).map Chunk.items).flatten =
        secItems st.flats ++ (secs.map (fun s => secItems s.flats)).flatten := by
  intro secs
  induction secs with
  | nil =>
    intro st hst
    simp only [packGo]
    unfold getCurrentChunk
    by_cases h : st.texts = []
    · rw [if_pos h]
      simp [hst h, secItems]
    · rw [if_neg h]
      simp [secItems]
  | cons s rest ih =>
    intro st hst
    simp only [packGo]
    split
    · unfold getCurrentChunk
      by_cases h : st.texts = []
      · rw [if_pos h]
        have hih := ih ⟨[s.text], s.flats⟩ (by simp)
        simp only [List.nil_append, List.map_cons, List.flatten_cons] at hih ⊢
        simp [hst h, hih, secItems]
      · rw [if_neg h]
        have hih := ih ⟨[s.text], s.flats⟩ (by simp)
        simp only [List.map_cons, List.flatten_cons, List.map_append,
          List.flatten_append, List.cons_append, List.nil_append] at hih ⊢
        rw [hih]
        rfl
    · have hih := ih ⟨st.texts ++ [s.text], st.flats ++ s.flats⟩ (by simp)
      rw [hih]
      simp only [List.map_cons, List.flatten_cons, secItems, List.map_append,
        List.append_assoc]

theorem hybrid_items_flatten (tok : String → Option (List String)) (maxT : Nat)
    (d : Doc) :
    ((hybridChunk tok maxT d).map Chunk.items).flatten = secItems (flatten d) := by
  rw [show hybridChunk tok maxT d
        = if flatten d = [] then []
          else splitDocumentByTokens tok maxT (flatten d) from rfl]
  by_cases h : flatten d = []
  · simp [h, secItems]
  · rw [if_neg h]
    unfold splitDocumentByTokens
    rw [if_neg h]
    unfold pack
    rw [packGo_items tok maxT _ _ (fun _ => rfl)]
    rw [join_secItems, mergeOrphans_flats_join]
    have hmk : ((segment (flatten d)).map mkSec).map SecT.flats = segment (flatten d) := by
      rw [List.map_map]
      rw [show SecT.flats ∘ mkSec = id from rfl, List.map_id]
    rw [hmk]
    unfold segment
    rw [segGo_join]
    rfl

/-- Claim C2: the concatenation of `meta.doc_items` across the chunks emitted
by `HybridChunker.chunk`, in emission order, is exactly the flattened item
sequence produced by `HierarchicalChunker.chunk` — no item lost, none
duplicated. -/
theorem C2_coverage_exact (tok : String → Option (List String)) (maxT : Nat)
    (d : Doc) :
    ((hybridChunk tok maxT d).map Chunk.items).flatten = secItems (flatten d) :=
  hybrid_items_flatten tok maxT d

/-! ## C5: idempotence of the orphan merger -/

theorem mergeOrphans_cons2 (a b : SecT) (rest : List SecT) :
    mergeOrphans (a :: b :: rest) =
      match mergeOrphans (b :: rest) with
      | [] => [a]
      | n :: tail => if foldCond a n then foldSec a n :: tail else a :: n :: tail :=
  rfl

theorem mergeOrphans_cons2_nil (a b : SecT) (rest : List SecT)
    (h : mergeOrphans (b :: rest) = []) : mergeOrphans (a :: b :: rest) = [a] := by
  rw [mergeOrphans_cons2, h]

theorem mergeOrphans_cons2_fold (a b : SecT) (rest : List SecT) (n : SecT)
    (tail : List SecT) (h : mergeOrphans (b :: rest) = n :: tail)
    (hc : foldCond a n) :
    mergeOrphans (a :: b :: rest) = foldSec a n :: tail := by
  rw [mergeOrphans_cons2, h]
  show (if foldCond a n then foldSec a n :: tail else a :: n :: tail)
      = foldSec a n :: tail
  exact if_pos hc

theorem mergeOrphans_cons2_nofold (a b : SecT) (rest : List SecT) (n : SecT)
    (tail : List SecT) (h : mergeOrphans (b :: rest) = n :: tail)
    (hc : ¬ foldCond a n) :
    mergeOrphans (a :: b :: rest) = a :: n :: tail := by
  rw [mergeOrphans_cons2, h]
  show (if foldCond a n then foldSec a n :: tail else a :: n :: tail)
      = a :: n :: tail
  exact if_neg hc

theorem mergeOrphans_flats_ne : ∀ (l : List SecT), (∀ s ∈ l, s.flats ≠ []) →
    ∀ s ∈ mergeOrphans l, s.flats ≠ [] := by
  intro l
  match l with
  | [] => intro _ s hs; cases hs
  | [s] =>
    intro h s' hs'
    simp only [mergeOrphans, List.mem_singleton] at hs'
    subst hs'
    exact h s' (by simp)
  | a :: b :: rest =>
    intro h s hs
    have ih := mergeOrphans_flats_ne (b :: rest) (fun x hx => h x (by simp [hx]))
    cases hmo : mergeOrphans (b :: rest) with
    | nil =>
      rw [mergeOrphans_cons2_nil a b rest hmo] at hs
      simp at hs
      rw [hs]
      exact h a (by simp)
    | cons n tail =>
      by_cases hc : foldCond a n
      · rw [mergeOrphans_cons2_fold a b rest n tail hmo hc] at hs
        rcases List.mem_cons.mp hs with hs | hs
        · rw [hs]
          have ha := h a (by simp)
          simp only [foldSec]
          intro hcontra
          exact ha (List.append_eq_nil.mp hcontra).1
        · exact ih s (by rw [hmo]; exact List.mem_cons_of_mem _ hs)
      · rw [mergeOrphans_cons2_nofold a b rest n tail hmo hc] at hs
        rcases List.mem_cons.mp hs with hs | hs
        · rw [hs]
          exact h a (by simp)
        · exact ih s (by rw [hmo]; exact hs)

theorem mergeOrphans_stable_tail (n : SecT) (tail : List SecT)
    (hne : ∀ s ∈ tail, s.flats ≠ [])
    (h : mergeOrphans (n :: tail) = n :: tail) :
    mergeOrphans tail = tail ∧ ∀ m t, tail = m :: t → ¬ foldCond n m := by
  match tail, hne, h with
  | [], _, _ => exact ⟨rfl, by intro m t ht; cases ht⟩
  | m :: t, hne, h =>
    cases hmo : mergeOrphans (m :: t) with
    | nil => exact absurd hmo (mergeOrphans_ne_nil _ (by simp))
    | cons m' t' =>
      by_cases hc : foldCond n m'
      · rw [mergeOrphans_cons2_fold n m t m' t' hmo hc] at h
        have h1 : foldSec n m' = n := (List.cons_eq_cons.mp h).1
        have hm' : m'.flats = [] := by
          have h2 := congrArg SecT.flats h1
          simp only [foldSec] at h2
          simpa using h2
        have hm'ne : m'.flats ≠ [] :=
          mergeOrphans_flats_ne (m :: t) hne m' (by rw [hmo]; simp)
        exact absurd hm' hm'ne
      · rw [mergeOrphans_cons2_nofold n m t m' t' hmo hc] at h
        have h2 := (List.cons_eq_cons.mp h).2
        have hm : m' = m := (List.cons_eq_cons.mp h2).1
        have ht : t' = t := (List.cons_eq_cons.mp h2).2
        subst hm
        subst ht
        refine ⟨rfl, ?_⟩
        intro mm tt htt
        have hmm : mm = m' := (List.cons_eq_cons.mp htt.symm).1
        subst hmm
        exact hc

theorem mergeOrphans_idem : ∀ (l : List SecT), (∀ s ∈ l, s.flats ≠ []) →
    mergeOrphans (mergeOrphans l) = mergeOrphans l := by
  intro l
  match l with
  | [] => intro _; rfl
  | [s] => intro _; rfl
  | a :: b :: rest =>
    intro hne
    have ihrec := mergeOrphans_idem (b :: rest) (fun x hx => hne x (by simp [hx]))
    cases hmo : mergeOrphans (b :: rest) with
    | nil => exact absurd hmo (mergeOrphans_ne_nil _ (by simp))
    | cons n tail =>
      rw [hmo] at ihrec
      have hneR : ∀ s ∈ n :: tail, s.flats ≠ [] := fun s hs =>
        mergeOrphans_flats_ne (b :: rest) (fun x hx => hne x (by simp [hx])) s
          (by rw [hmo]; exact hs)
      by_cases hc : foldCond a n
      · rw [mergeOrphans_cons2_fold a b rest n tail hmo hc]
        cases tail with
        | nil => rfl
        | cons m t =>
          have hst := mergeOrphans_stable_tail n (m :: t)
            (fun s hs => hneR s (by simp [hs])) ihrec
          have hnf : ¬ foldCond (foldSec a n) m := by
            intro hcontra
            have h1 := List.length_pos.mpr (hne a (by simp))
            have h2 := List.length_pos.mpr (hneR n (by simp))
            have h3 := hcontra.1
            simp only [foldSec, List.length_append] at h3
            omega
          exact mergeOrphans_cons2_nofold (foldSec a n) m t m t hst.1 hnf
      · rw [mergeOrphans_cons2_nofold a b rest n tail hmo hc]
        exact mergeOrphans_cons2_nofold a n tail n tail ihrec hc

/-- Claim C5: the Orphan-Heading Merger is idempotent on section lists (the
data model's sections always carry at least one item). -/
theorem C5_orphan_merge_idempotent (l : List SecT)
    (h : ∀ s ∈ l, s.flats ≠ []) :
    mergeOrphans (mergeOrphans l) = mergeOrphans l :=
  mergeOrphans_idem l h

/-- Witness for C5 on a concrete three-section list. -/
theorem C5_witness :
    (∀ s ∈ [SecT.mk "h" [⟨.sectionHeader 1 1 "h" "h", [(1, "h")], [(1, "h")]⟩],
            SecT.mk "p" [⟨.text 2 .plain "p" "p", [(1, "h")], [(1, "h")]⟩],
            SecT.mk "q" [⟨.text 3 .plain "q" "q", [(1, "h")], [(1, "h")]⟩]],
        s.flats ≠ []) ∧
    mergeOrphans (mergeOrphans
      [SecT.mk "h" [⟨.sectionHeader 1 1 "h" "h", [(1, "h")], [(1, "h")]⟩],
       SecT.mk "p" [⟨.text 2 .plain "p" "p", [(1, "h")], [(1, "h")]⟩],
       SecT.mk "q" [⟨.text 3 .plain "q" "q", [(1, "h")], [(1, "h")]⟩]]) =
    mergeOrphans
      [SecT.mk "h" [⟨.sectionHeader 1 1 "h" "h", [(1, "h")], [(1, "h")]⟩],
       SecT.mk "p" [⟨.text 2 .plain "p" "p", [(1, "h")], [(1, "h")]⟩],
       SecT.mk "q" [⟨.text 3 .plain "q" "q", [(1, "h")], [(1, "h")]⟩]] :=
  ⟨by decide, C5_orphan_merge_idempotent _ (by decide)⟩

/-! ## Heading-level lemmas -/

theorem isSH_eq_false_iff (it : Item) :
    it.isSH = false ↔ it.headerLevel = none := by
  cases h : it.headerLevel <;> simp [Item.isSH, h]

theorem isSH_eq_true_iff (it : Item) :
    it.isSH = true ↔ ∃ l, it.headerLevel = some l := by
  cases h : it.headerLevel <;> simp [Item.isSH, h]

theorem deepest_nonneg_bound (its : List Item) : -1 ≤ deepestHeadingI its := by
  induction its with
  | nil => simp [deepestHeadingI]
  | cons it rest ih =>
    simp only [deepestHeadingI, List.foldr] at ih ⊢
    cases h : it.headerLevel with
    | none => exact ih
    | some l => exact le_trans ih (le_max_right _ _)

theorem first_le_deepest (its : List Item) :
    firstHeadingLevelI its ≤ deepestHeadingI its := by
  induction its with
  | nil => simp [firstHeadingLevelI, deepestHeadingI]
  | cons it rest ih =>
    simp only [firstHeadingLevelI, deepestHeadingI, List.foldr] at ih ⊢
    cases h : it.headerLevel with
    | none => exact le_trans ih (by simp [deepestHeadingI])
    | some l => exact le_max_left _ _

theorem deepest_cons (it : Item) (its : List Item) :
    deepestHeadingI (it :: its) =
      match it.headerLevel with
      | some l => max (l : Int) (deepestHeadingI its)
      | none => deepestHeadingI its := rfl

theorem deepest_append (xs ys : List Item) :
    deepestHeadingI (xs ++ ys) = max (deepestHeadingI xs) (deepestHeadingI ys) := by
  induction xs with
  | nil =>
    rw [List.nil_append, show deepestHeadingI [] = -1 from rfl]
    exact (max_eq_right (deepest_nonneg_bound ys)).symm
  | cons it rest ih =>
    rw [List.cons_append, deepest_cons, deepest_cons, ih]
    cases h : it.headerLevel with
    | none => rfl
    | some l => simp [max_assoc]

theorem firstHeading_noSH (its : List Item)
    (h : ∀ it ∈ its, it.headerLevel = none) : firstHeadingLevelI its = -1 := by
  induction its with
  | nil => rfl
  | cons it rest ih =>
    simp only [firstHeadingLevelI]
    rw [h it (by simp)]
    exact ih fun x hx => h x (by simp [hx])

theorem deepest_noSH (its : List Item)
    (h : ∀ it ∈ its, it.headerLevel = none) : deepestHeadingI its = -1 := by
  induction its with
  | nil => rfl
  | cons it rest ih =>
    rw [deepest_cons, h it (by simp)]
    exact ih fun x hx => h x (by simp [hx])

/-! ## Coherence of the flattener's snapshots -/

theorem hmMaxKey_snapUpd (m : HM) (it : Item) :
    hmMaxKey (snapUpd Item.textAttr m it) = ctxUpd (hmMaxKey m) it := by
  unfold snapUpd ctxUpd
  cases h : it.headerLevel with
  | none => rfl
  | some l => exact hmMaxKey_update m l _

theorem chained_coh : ∀ (fs : List Flat) (m : HM) (c : Int),
    ChainedS m fs → hmMaxKey m = c → CohFrom c fs := by
  intro fs
  induction fs with
  | nil => intro m c _ _; trivial
  | cons f rest ih =>
    intro m c hch hmk
    refine ⟨?_, ?_⟩
    · rw [hch.1, hmMaxKey_snapUpd, hmk]
    · exact ih (snapUpd Item.textAttr m f.item) _ hch.2
        (by rw [hmMaxKey_snapUpd, hmk])

theorem coh_flatten (d : Doc) : CohFrom (-1) (flatten d) :=
  chained_coh (flatten d) [] (-1) (chained_flatten d) rfl

theorem cohFrom_append_left : ∀ (xs ys : List Flat) (c : Int),
    CohFrom c (xs ++ ys) → CohFrom c xs := by
  intro xs
  induction xs with
  | nil => intro ys c _; trivial
  | cons f rest ih =>
    intro ys c h
    exact ⟨h.1, ih ys _ h.2⟩

theorem cohFrom_append_right : ∀ (xs ys : List Flat) (c : Int),
    CohFrom c (xs ++ ys) → CohFrom (ctxList c xs) ys := by
  intro xs
  induction xs with
  | nil => intro ys c h; exact h
  | cons f rest ih =>
    intro ys c h
    exact ih ys _ h.2

theorem ctxList_nonheading (c : Int) (g : List Flat)
    (h : ∀ f ∈ g, f.item.headerLevel = none) : ctxList c g = c := by
  induction g generalizing c with
  | nil => rfl
  | cons f rest ih =>
    simp only [ctxList, List.foldl] at ih ⊢
    rw [show ctxUpd c f.item = c by unfold ctxUpd; rw [h f (by simp)]]
    exact ih c fun x hx => h x (by simp [hx])

theorem coh_noSH_getLast : ∀ (t : List Flat) (c : Int) (lf : Flat),
    CohFrom c t → (∀ f ∈ t, f.item.headerLevel = none) →
    t.getLast? = some lf → hmMaxKey lf.snap = c := by
  intro t
  induction t with
  | nil => intro c lf _ _ h; cases h
  | cons g t' ih =>
    intro c lf hcoh hno hlast
    have hg : g.item.headerLevel = none := hno g (by simp)
    have hctx : ctxUpd c g.item = c := by unfold ctxUpd; rw [hg]
    cases t' with
    | nil =>
      simp at hlast
      subst hlast
      rw [hcoh.1, hctx]
    | cons g' t'' =>
      rw [List.getLast?_cons_cons] at hlast
      have := ih c lf ?_ (fun x hx => hno x (by simp [hx])) hlast
      · exact this
      · have h2 := hcoh.2
        rw [hctx] at h2
        exact h2

theorem getHL_true_cons (f : Flat) (t : List Flat) :
    getHL (f :: t) true = hmMaxKey f.snap := rfl

theorem getHL_false_of_getLast (flats : List Flat) (lf : Flat)
    (h : flats.getLast? = some lf) : getHL flats false = hmMaxKey lf.snap := by
  unfold getHL
  rw [h]
  rfl

theorem getHL_false_cons_cons (f g : Flat) (t : List Flat) :
    getHL (f :: g :: t) false = getHL (g :: t) false := by
  unfold getHL
  rw [List.getLast?_cons_cons]
  rfl

/-- A coherent, tail-heading-free, nonempty run that either starts with a
heading or lives in the empty context is a well-formed section. -/
theorem groupOK_of_coh (g : List Flat) (c : Int) (hcoh : CohFrom c g)
    (ht : TailNoSH g) (hh : HeadedF g ∨ (c = -1 ∧ NoSH g)) (hne : g ≠ []) :
    SecOK g := by
  match g, hcoh, ht, hne with
  | f :: t, hcoh, ht, _ =>
    have htno : ∀ x ∈ t, x.item.headerLevel = none := by
      intro x hx
      exact (isSH_eq_false_iff x.item).mp (ht x hx)
    have hitems : secItems (f :: t) = f.item :: secItems t := rfl
    have htnoI : ∀ x ∈ secItems t, Item.headerLevel x = none := by
      intro x hx
      simp only [secItems, List.mem_map] at hx
      obtain ⟨y, hy, hxy⟩ := hx
      subst hxy
      exact htno y hy
    -- the context after the head item
    have hlastmax : getHL (f :: t) false = ctxUpd c f.item := by
      cases t with
      | nil => exact hcoh.1
      | cons g' t'' =>
        rw [getHL_false_cons_cons]
        have hlf : (g' :: t'').getLast? = some ((g' :: t'').getLast (by simp)) :=
          List.getLast?_eq_getLast _ (by simp)
        rw [getHL_false_of_getLast _ _ hlf]
        exact coh_noSH_getLast (g' :: t'') _ _ hcoh.2 htno hlf
    have hfirst : firstHeadingLevelI (secItems (f :: t)) = ctxUpd c f.item := by
      rcases hh with ⟨f', t', hft, hsh⟩ | ⟨hc, hno⟩
      · have hf : f = f' := (List.cons_eq_cons.mp hft).1
        obtain ⟨l, hl⟩ := (isSH_eq_true_iff f.item).mp (hf ▸ hsh)
        rw [hitems]
        unfold ctxUpd
        rw [hl]
        simp [firstHeadingLevelI, hl]
      · have hfno : f.item.headerLevel = none :=
          (isSH_eq_false_iff f.item).mp (hno f (by simp))
        rw [hitems, show firstHeadingLevelI (f.item :: secItems t)
              = firstHeadingLevelI (secItems t) from by
            simp [firstHeadingLevelI, hfno]]
        rw [firstHeading_noSH _ htnoI]
        unfold ctxUpd
        rw [hfno, hc]
    have hdeep : deepestHeadingI (secItems (f :: t)) = ctxUpd c f.item := by
      rcases hh with ⟨f', t', hft, hsh⟩ | ⟨hc, hno⟩
      · have hf : f = f' := (List.cons_eq_cons.mp hft).1
        obtain ⟨l, hl⟩ := (isSH_eq_true_iff f.item).mp (hf ▸ hsh)
        rw [hitems, deepest_cons, hl, deepest_noSH _ htnoI]
        unfold ctxUpd
        rw [hl]
        exact max_eq_left (le_trans (by norm_num) (Int.ofNat_nonneg l))
      · have hfno : f.item.headerLevel = none :=
          (isSH_eq_false_iff f.item).mp (hno f (by simp))
        rw [hitems, deepest_cons, hfno, deepest_noSH _ htnoI]
        unfold ctxUpd
        rw [hfno, hc]
    refine ⟨by simp, ?_, ?_⟩
    · unfold W1
      rw [getHL_true_cons, hcoh.1, hfirst]
    · unfold W2
      rw [hlastmax, hdeep]

/-! ## Sections produced by segmentation are well formed -/

theorem noSH_nil : NoSH [] := fun x hx => absurd hx (List.not_mem_nil x)

theorem headedF_ne_nil (g : List Flat) (h : HeadedF g) : g ≠ [] := by
  obtain ⟨f, t, hg, _⟩ := h
  rw [hg]
  simp

theorem headedF_append (g : List Flat) (f : Flat) (h : HeadedF g) :
    HeadedF (g ++ [f]) := by
  obtain ⟨f', t, hg, hsh⟩ := h
  exact ⟨f', t ++ [f], by rw [hg]; rfl, hsh⟩

theorem segGo_secOK : ∀ (fs cur : List Flat) (c₀ : Int),
    CohFrom c₀ (cur ++ fs) → TailNoSH cur →
    (HeadedF cur ∨ (c₀ = -1 ∧ NoSH cur)) →
    ∀ g ∈ segGo cur fs, SecOK g := by
  intro fs
  induction fs with
  | nil =>
    intro cur c₀ hcoh ht hh g hg
    simp only [segGo] at hg
    by_cases hc : cur = []
    · rw [if_neg (by simp [hc])] at hg
      cases hg
    · rw [if_pos hc] at hg
      have hgc : g = cur := by simpa using hg
      subst hgc
      rw [List.append_nil] at hcoh
      exact groupOK_of_coh g c₀ hcoh ht hh hc
  | cons f rest ih =>
    intro cur c₀ hcoh ht hh g hg
    simp only [segGo] at hg
    by_cases hsh : f.item.isSH = true
    · rw [if_pos hsh] at hg
      rcases List.mem_append.mp hg with hg | hg
      · by_cases hc : cur = []
        · rw [if_neg (by simp [hc])] at hg
          cases hg
        · rw [if_pos hc] at hg
          have hgc : g = cur := by simpa using hg
          subst hgc
          exact groupOK_of_coh g c₀ (cohFrom_append_left _ _ _ hcoh) ht hh hc
      · have hcoh' : CohFrom (ctxList c₀ cur) ([f] ++ rest) :=
          cohFrom_append_right cur (f :: rest) c₀ hcoh
        exact ih [f] (ctxList c₀ cur) hcoh' noSH_nil
          (Or.inl ⟨f, [], rfl, hsh⟩) g hg
    · rw [if_neg hsh] at hg
      have hshf : f.item.isSH = false := by simpa using hsh
      have hcoh' : CohFrom c₀ ((cur ++ [f]) ++ rest) := by
        rw [List.append_assoc]
        exact hcoh
      have ht' : TailNoSH (cur ++ [f]) := by
        cases cur with
        | nil => exact noSH_nil
        | cons c0 ct =>
          show NoSH (ct ++ [f])
          intro x hx
          rcases List.mem_append.mp hx with hx | hx
          · exact ht x hx
          · simp at hx
            subst hx
            exact hshf
      have hh' : HeadedF (cur ++ [f]) ∨ (c₀ = -1 ∧ NoSH (cur ++ [f])) := by
        rcases hh with hhead | ⟨hc, hno⟩
        · exact Or.inl (headedF_append cur f hhead)
        · refine Or.inr ⟨hc, ?_⟩
          intro x hx
          rcases List.mem_append.mp hx with hx | hx
          · exact hno x hx
          · simp at hx
            subst hx
            exact hshf
      exact ih (cur ++ [f]) c₀ hcoh' ht' hh' g hg

theorem segGo_all_headed : ∀ (fs cur : List Flat), HeadedF cur →
    ∀ g ∈ segGo cur fs, HeadedF g := by
  intro fs
  induction fs with
  | nil =>
    intro cur hc g hg
    simp only [segGo] at hg
    rw [if_pos (headedF_ne_nil cur hc)] at hg
    have hgc : g = cur := by simpa using hg
    subst hgc
    exact hc
  | cons f rest ih =>
    intro cur hc g hg
    simp only [segGo] at hg
    by_cases hsh : f.item.isSH = true
    · rw [if_pos hsh, if_pos (headedF_ne_nil cur hc)] at hg
      rcases List.mem_append.mp hg with hg | hg
      · have hgc : g = cur := by simpa using hg
        subst hgc
        exact hc
      · exact ih [f] ⟨f, [], rfl, hsh⟩ g hg
    · rw [if_neg hsh] at hg
      exact ih (cur ++ [f]) (headedF_append cur f hc) g hg

theorem segGo_tail_headed : ∀ (fs cur : List Flat) (g : List Flat)
    (gs : List (List Flat)), segGo cur fs = g :: gs → ∀ g' ∈ gs, HeadedF g' := by
  intro fs
  induction fs with
  | nil =>
    intro cur g gs heq g' hg'
    simp only [segGo] at heq
    by_cases hc : cur = []
    · rw [if_neg (by simp [hc])] at heq
      cases heq
    · rw [if_pos hc] at heq
      injection heq with h1 h2
      rw [← h2] at hg'
      cases hg'
  | cons f rest ih =>
    intro cur g gs heq g' hg'
    simp only [segGo] at heq
    by_cases hsh : f.item.isSH = true
    · rw [if_pos hsh] at heq
      have hall := segGo_all_headed rest [f] ⟨f, [], rfl, hsh⟩
      by_cases hc : cur = []
      · rw [if_neg (by simp [hc])] at heq
        rw [List.nil_append] at heq
        exact hall g' (by rw [heq]; exact List.mem_cons_of_mem _ hg')
      · rw [if_pos hc] at heq
        rw [List.singleton_append] at heq
        injection heq with h1 h2
        exact hall g' (h2 ▸ hg')
    · rw [if_neg hsh] at heq
      exact ih (cur ++ [f]) g gs heq g' hg'

theorem preSections_ok (d : Doc) :
    (∀ s ∈ preSections d, SecOKt s) ∧
    (∀ s ∈ (preSections d).tail, Headed s) := by
  constructor
  · intro s hs
    unfold preSections at hs
    obtain ⟨g, hg, hgs⟩ := List.mem_map.mp hs
    subst hgs
    show SecOK g
    exact segGo_secOK (flatten d) [] (-1) (coh_flatten d) trivial
      (Or.inr ⟨rfl, noSH_nil⟩) g hg
  · intro s hs
    cases hseg : segment (flatten d) with
    | nil =>
      unfold preSections at hs
      rw [hseg] at hs
      cases hs
    | cons g gs =>
      unfold preSections at hs
      rw [hseg] at hs
      simp only [List.map_cons, List.tail_cons] at hs
      obtain ⟨g', hg', hgs⟩ := List.mem_map.mp hs
      subst hgs
      show HeadedF g'
      exact segGo_tail_headed (flatten d) [] g gs hseg g' hg'

/-! ## The orphan merger preserves well-formedness; C4 -/

theorem secOK_W1 (g : List Flat) (h : SecOK g) :
    getHL g true = firstHeadingLevelI (secItems g) := h.2.1

theorem secOK_W2 (g : List Flat) (h : SecOK g) :
    getHL g false = deepestHeadingI (secItems g) := h.2.2

theorem headed_first_eq (s : SecT) (h : Headed s) :
    ∃ fn tn ln, s.flats = fn :: tn ∧ fn.item.headerLevel = some ln ∧
      firstHeadingLevelI (secItems s.flats) = (ln : Int) := by
  obtain ⟨fn, tn, hfl, hsh⟩ := h
  obtain ⟨ln, hln⟩ := (isSH_eq_true_iff fn.item).mp hsh
  refine ⟨fn, tn, ln, hfl, hln, ?_⟩
  rw [hfl]
  simp [secItems, firstHeadingLevelI, hln]

theorem getHL_singleton_false (f : Flat) : getHL [f] false = hmMaxKey f.snap := rfl

/-- Folding an orphan heading into a well-formed headed section yields a
well-formed headed section. -/
theorem foldSec_ok (a n : SecT) (hc : foldCond a n) (ha : SecOKt a)
    (hn : SecOKt n) (hhn : Headed n) :
    SecOKt (foldSec a n) ∧ Headed (foldSec a n) := by
  obtain ⟨h1, h2, _, h4⟩ := hc
  obtain ⟨fa, hfa⟩ := List.length_eq_one.mp h1
  have hsh : fa.item.isSH = true := by
    rw [hfa] at h2
    simpa using h2
  obtain ⟨la, hla⟩ := (isSH_eq_true_iff fa.item).mp hsh
  have hfa1 : hmMaxKey fa.snap = (la : Int) := by
    have hw := secOK_W1 a.flats ha
    rw [hfa] at hw
    rw [show getHL [fa] true = hmMaxKey fa.snap from rfl] at hw
    rw [hw]
    simp [secItems, firstHeadingLevelI, hla]
  obtain ⟨fn, tn, ln, hfl, hln, hfirst⟩ := headed_first_eq n hhn
  have hflats : (foldSec a n).flats = fa :: n.flats := by
    simp [foldSec, hfa]
  -- the level guard gives la ≤ ln
  have hlevels : (la : Int) ≤ (ln : Int) := by
    by_contra hcon
    apply h4
    constructor
    · rw [secOK_W1 n.flats hn, hfirst]
      exact Int.ofNat_nonneg ln
    · rw [secOK_W1 n.flats hn, hfirst, hfa, getHL_singleton_false, hfa1]
      omega
  constructor
  · refine ⟨?_, ?_, ?_⟩
    · rw [hflats]; simp
    · show getHL (foldSec a n).flats true
          = firstHeadingLevelI (secItems (foldSec a n).flats)
      rw [hflats, getHL_true_cons, hfa1]
      simp [secItems, firstHeadingLevelI, hla]
    · show getHL (foldSec a n).flats false
          = deepestHeadingI (secItems (foldSec a n).flats)
      rw [hflats]
      have hne : n.flats ≠ [] := hn.1
      rw [show secItems (fa :: n.flats) = fa.item :: secItems n.flats from rfl,
          deepest_cons, hla]
      rw [show getHL (fa :: n.flats) false = getHL n.flats false from by
            rw [hfl]
            exact getHL_false_cons_cons fa fn tn]
      rw [secOK_W2 n.flats hn]
      have hd : (la : Int) ≤ deepestHeadingI (secItems n.flats) := by
        have := first_le_deepest (secItems n.flats)
        omega
      show deepestHeadingI (secItems n.flats)
          = max (la : Int) (deepestHeadingI (secItems n.flats))
      exact (max_eq_right hd).symm
  · exact ⟨fa, n.flats, hflats, hsh⟩

theorem mergeOrphans_all_ok : ∀ (l : List SecT),
    (∀ s ∈ l, SecOKt s ∧ Headed s) →
    ∀ s ∈ mergeOrphans l, SecOKt s ∧ Headed s := by
  intro l
  match l with
  | [] => intro _ s hs; cases hs
  | [s] =>
    intro h s' hs'
    simp only [mergeOrphans, List.mem_singleton] at hs'
    subst hs'
    exact h s' (by simp)
  | a :: b :: rest =>
    intro h s hs
    have ih := mergeOrphans_all_ok (b :: rest) (fun x hx => h x (by simp [hx]))
    cases hmo : mergeOrphans (b :: rest) with
    | nil =>
      rw [mergeOrphans_cons2_nil a b rest hmo] at hs
      simp at hs
      rw [hs]
      exact h a (by simp)
    | cons n tail =>
      have hnok := ih n (by rw [hmo]; simp)
      by_cases hc : foldCond a n
      · rw [mergeOrphans_cons2_fold a b rest n tail hmo hc] at hs
        rcases List.mem_cons.mp hs with hs | hs
        · rw [hs]
          exact foldSec_ok a n hc (h a (by simp)).1 hnok.1 hnok.2
        · exact ih s (by rw [hmo]; exact List.mem_cons_of_mem _ hs)
      · rw [mergeOrphans_cons2_nofold a b rest n tail hmo hc] at hs
        rcases List.mem_cons.mp hs with hs | hs
        · rw [hs]
          exact h a (by simp)
        · exact ih s (by rw [hmo]; exact hs)

theorem mergeOrphans_ok_main (l : List SecT) (h1 : ∀ s ∈ l, SecOKt s)
    (h2 : ∀ s ∈ l.tail, Headed s) :
    (∀ s ∈ mergeOrphans l, SecOKt s) ∧
    (∀ s ∈ (mergeOrphans l).tail, Headed s) := by
  match l, h1, h2 with
  | [], _, _ => exact ⟨fun s hs => absurd hs (List.not_mem_nil s), fun s hs => absurd hs (List.not_mem_nil s)⟩
  | [s], h1, _ =>
    refine ⟨?_, ?_⟩
    · intro s' hs'
      simp only [mergeOrphans, List.mem_singleton] at hs'
      subst hs'
      exact h1 s' (by simp)
    · intro s' hs'
      simp only [mergeOrphans, List.tail_cons] at hs'
      cases hs'
  | a :: b :: rest, h1, h2 =>
    have hallR : ∀ s ∈ b :: rest, SecOKt s ∧ Headed s := fun s hs =>
      ⟨h1 s (by simp [hs]), h2 s hs⟩
    have hmoAll := mergeOrphans_all_ok (b :: rest) hallR
    cases hmo : mergeOrphans (b :: rest) with
    | nil => exact absurd hmo (mergeOrphans_ne_nil _ (by simp))
    | cons n tail =>
      have hnok := hmoAll n (by rw [hmo]; simp)
      by_cases hc : foldCond a n
      · rw [mergeOrphans_cons2_fold a b rest n tail hmo hc]
        refine ⟨?_, ?_⟩
        · intro s hs
          rcases List.mem_cons.mp hs with hs | hs
          · rw [hs]
            exact (foldSec_ok a n hc (h1 a (by simp)) hnok.1 hnok.2).1
          · exact (hmoAll s (by rw [hmo]; exact List.mem_cons_of_mem _ hs)).1
        · intro s hs
          simp only [List.tail_cons] at hs
          exact (hmoAll s (by rw [hmo]; exact List.mem_cons_of_mem _ hs)).2
      · rw [mergeOrphans_cons2_nofold a b rest n tail hmo hc]
        refine ⟨?_, ?_⟩
        · intro s hs
          rcases List.mem_cons.mp hs with hs | hs
          · rw [hs]
            exact h1 a (by simp)
          · exact (hmoAll s (by rw [hmo]; exact hs)).1
        · intro s hs
          simp only [List.tail_cons] at hs
          exact (hmoAll s (by rw [hmo]; exact hs)).2

/-- Under well-formedness, the code's merge test and the claim's item-level
merge test with the amended (`≤ 30`) threshold coincide. -/
theorem foldCond_iff_amended (a n : SecT) (ha : SecOKt a) (hn : SecOKt n) :
    foldCond a n ↔ foldCondAmended a n := by
  unfold foldCond foldCondAmended
  by_cases h1 : a.flats.length = 1
  · by_cases h2 : Option.any (fun f => f.item.isSH) a.flats.head? = true
    · obtain ⟨fa, hfa⟩ := List.length_eq_one.mp h1
      have hsh : fa.item.isSH = true := by
        rw [hfa] at h2
        simpa using h2
      obtain ⟨la, hla⟩ := (isSH_eq_true_iff fa.item).mp hsh
      have hafalse : getHL a.flats false = firstHeadingLevelI (secItems a.flats) := by
        have hw := secOK_W1 a.flats ha
        rw [hfa] at hw ⊢
        rw [getHL_singleton_false]
        rw [show getHL [fa] true = hmMaxKey fa.snap from rfl] at hw
        exact hw
      have hntrue : getHL n.flats true = firstHeadingLevelI (secItems n.flats) :=
        secOK_W1 n.flats hn
      rw [hafalse, hntrue]
      constructor
      · rintro ⟨_, _, h3, h4⟩
        exact ⟨h1, h2, Nat.not_lt.mp h3, h4⟩
      · rintro ⟨_, _, h3, h4⟩
        exact ⟨h1, h2, Nat.not_lt.mpr h3, h4⟩
    · constructor
      · rintro ⟨_, hc, _, _⟩
        exact absurd hc h2
      · rintro ⟨_, hc, _, _⟩
        exact absurd hc h2
  · constructor
    · rintro ⟨hc, _, _, _⟩
      exact absurd hc h1
    · rintro ⟨hc, _, _, _⟩
      exact absurd hc h1

theorem mergeOrphansWith_cons2 (p : SecT → SecT → Prop) [DecidableRel p]
    (a b : SecT) (rest : List SecT) :
    mergeOrphansWith p (a :: b :: rest) =
      match mergeOrphansWith p (b :: rest) with
      | [] => [a]
      | n :: tail => if p a n then foldSec a n :: tail else a :: n :: tail :=
  rfl

theorem mergeOrphansWith_cons2_fold (p : SecT → SecT → Prop) [DecidableRel p]
    (a b : SecT) (rest : List SecT) (n : SecT) (tail : List SecT)
    (h : mergeOrphansWith p (b :: rest) = n :: tail) (hc : p a n) :
    mergeOrphansWith p (a :: b :: rest) = foldSec a n :: tail := by
  rw [mergeOrphansWith_cons2, h]
  show (if p a n then foldSec a n :: tail else a :: n :: tail)
      = foldSec a n :: tail
  exact if_pos hc

theorem mergeOrphansWith_cons2_nofold (p : SecT → SecT → Prop) [DecidableRel p]
    (a b : SecT) (rest : List SecT) (n : SecT) (tail : List SecT)
    (h : mergeOrphansWith p (b :: rest) = n :: tail) (hc : ¬ p a n) :
    mergeOrphansWith p (a :: b :: rest) = a :: n :: tail := by
  rw [mergeOrphansWith_cons2, h]
  show (if p a n then foldSec a n :: tail else a :: n :: tail)
      = a :: n :: tail
  exact if_neg hc

theorem mergeOrphans_eq_amended : ∀ (l : List SecT),
    (∀ s ∈ l, SecOKt s) → (∀ s ∈ l.tail, Headed s) →
    mergeOrphans l = mergeOrphansAmended l := by
  intro l
  match l with
  | [] => intro _ _; rfl
  | [s] => intro _ _; rfl
  | a :: b :: rest =>
    intro hok hhd
    have hokR : ∀ s ∈ b :: rest, SecOKt s ∧ Headed s := fun s hs =>
      ⟨hok s (by simp [hs]), hhd s hs⟩
    have ih := mergeOrphans_eq_amended (b :: rest)
      (fun s hs => (hokR s hs).1)
      (fun s hs => hhd s (List.mem_cons_of_mem _ hs))
    cases hmo : mergeOrphans (b :: rest) with
    | nil => exact absurd hmo (mergeOrphans_ne_nil _ (by simp))
    | cons n tail =>
      have hmoA : mergeOrphansAmended (b :: rest) = n :: tail := by
        rw [show mergeOrphansAmended (b :: rest)
              = mergeOrphansWith foldCondAmended (b :: rest) from rfl]
        rw [show mergeOrphansWith foldCondAmended (b :: rest)
              = mergeOrphansAmended (b :: rest) from rfl, ← ih]
        exact hmo
      have hnok := mergeOrphans_all_ok (b :: rest) hokR n (by rw [hmo]; simp)
      have hiff := foldCond_iff_amended a n (hok a (by simp)) hnok.1
      by_cases hc : foldCond a n
      · rw [mergeOrphans_cons2_fold a b rest n tail hmo hc]
        rw [show mergeOrphansAmended (a :: b :: rest)
              = mergeOrphansWith foldCondAmended (a :: b :: rest) from rfl]
        rw [mergeOrphansWith_cons2_fold foldCondAmended a b rest n tail hmoA
          (hiff.mp hc)]
      · rw [mergeOrphans_cons2_nofold a b rest n tail hmo hc]
        rw [show mergeOrphansAmended (a :: b :: rest)
              = mergeOrphansWith foldCondAmended (a :: b :: rest) from rfl]
        rw [mergeOrphansWith_cons2_nofold foldCondAmended a b rest n tail hmoA
          (fun hcontra => hc (hiff.mpr hcontra))]

/-- Claim C4, amended: on pipeline sections the backward orphan scan folds a
section into its successor exactly under the claim's conditions with the
threshold corrected from "below 30 characters" to "at most 30 characters". -/
theorem C4_orphan_merger_rule_amended (d : Doc) :
    mergeOrphans (preSections d) = mergeOrphansAmended (preSections d) :=
  mergeOrphans_eq_amended (preSections d) (preSections_ok d).1 (preSections_ok d).2

/-- Counterexample for C4 as frozen: an orphan heading of exactly 30
characters.  The code folds it into the next section, while the claim's
strict "below the 30-character threshold" rule leaves the list unchanged. -/
theorem C4_counterexample :
    (preSections ⟨[.sectionHeader 1 1 "AAAAAAAAAAAAAAAAAAAAAAAAAAAAAA" "AAAAAAAAAAAAAAAAAAAAAAAAAAAAAA",
                   .sectionHeader 2 1 "Next" "Next",
                   .text 3 .plain "body" "body"], []⟩).length = 2 ∧
    ((preSections ⟨[.sectionHeader 1 1 "AAAAAAAAAAAAAAAAAAAAAAAAAAAAAA" "AAAAAAAAAAAAAAAAAAAAAAAAAAAAAA",
                   .sectionHeader 2 1 "Next" "Next",
                   .text 3 .plain "body" "body"], []⟩).map
        (fun s => (String.join (s.flats.map fun f => f.item.textAttr)).length)).head?
      = some 30 ∧
    (mergeOrphans (preSections ⟨[.sectionHeader 1 1 "AAAAAAAAAAAAAAAAAAAAAAAAAAAAAA" "AAAAAAAAAAAAAAAAAAAAAAAAAAAAAA",
                   .sectionHeader 2 1 "Next" "Next",
                   .text 3 .plain "body" "body"], []⟩)).length = 1 ∧
    mergeOrphansStrict (preSections ⟨[.sectionHeader 1 1 "AAAAAAAAAAAAAAAAAAAAAAAAAAAAAA" "AAAAAAAAAAAAAAAAAAAAAAAAAAAAAA",
                   .sectionHeader 2 1 "Next" "Next",
                   .text 3 .plain "body" "body"], []⟩)
      = preSections ⟨[.sectionHeader 1 1 "AAAAAAAAAAAAAAAAAAAAAAAAAAAAAA" "AAAAAAAAAAAAAAAAAAAAAAAAAAAAAA",
                   .sectionHeader 2 1 "Next" "Next",
                   .text 3 .plain "body" "body"], []⟩ := by
  refine ⟨by decide, by decide, by decide, by decide⟩

/-! ## C3: the packer's boundary rule -/

theorem getHL_append_false (a b : List Flat) (h : b ≠ []) :
    getHL (a ++ b) false = getHL b false := by
  have hlf : b.getLast? = some (b.getLast h) := List.getLast?_eq_getLast b h
  rw [getHL_false_of_getLast b _ hlf]
  rw [getHL_false_of_getLast (a ++ b) (b.getLast h)]
  rw [List.getLast?_append_of_ne_nil _ h]
  exact hlf

theorem packGo_cons (tok : String → Option (List String)) (maxT : Nat)
    (s : SecT) (rest : List SecT) (st : PackState) :
    packGo tok maxT (s :: rest) st =
      if (countTokens tok (String.intercalate "\n" (st.texts ++ [s.text])) > maxT ∧
            st.texts.length > 0) ∨
         (0 ≤ getHL s.flats true ∧ getHL s.flats true < getHL st.flats false) then
        (match getCurrentChunk st with | some c => [c] | none => []) ++
          packGo tok maxT rest ⟨[s.text], s.flats⟩
      else packGo tok maxT rest ⟨st.texts ++ [s.text], st.flats ++ s.flats⟩ := rfl

theorem packClaimGo_cons (tok : String → Option (List String)) (maxT : Nat)
    (s : SecT) (rest : List SecT) (st : PackState) :
    packClaimGo tok maxT (s :: rest) st =
      if (countTokens tok (String.intercalate "\n" (st.texts ++ [s.text])) > maxT ∧
            st.texts.length > 0) ∨
         (0 ≤ firstHeadingLevelI (secItems s.flats) ∧
            firstHeadingLevelI (secItems s.flats) < deepestHeadingI (secItems st.flats)) then
        (match getCurrentChunk st with | some c => [c] | none => []) ++
          packClaimGo tok maxT rest ⟨[s.text], s.flats⟩
      else packClaimGo tok maxT rest ⟨st.texts ++ [s.text], st.flats ++ s.flats⟩ := rfl

theorem packGo_start (tok : String → Option (List String)) (maxT : Nat)
    (s : SecT) (rest : List SecT) :
    packGo tok maxT (s :: rest) ⟨[], []⟩ =
      packGo tok maxT rest ⟨[s.text], s.flats⟩ := by
  rw [packGo_cons]
  rw [if_neg ?hc]
  case hc =>
    rintro (⟨_, h⟩ | ⟨h1, h2⟩)
    · simp at h
    · rw [show getHL ([] : List Flat) false = -1 from rfl] at h2
      omega
  simp only [List.nil_append]

theorem packClaimGo_start (tok : String → Option (List String)) (maxT : Nat)
    (s : SecT) (rest : List SecT) :
    packClaimGo tok maxT (s :: rest) ⟨[], []⟩ =
      packClaimGo tok maxT rest ⟨[s.text], s.flats⟩ := by
  rw [packClaimGo_cons]
  rw [if_neg ?hc]
  case hc =>
    rintro (⟨_, h⟩ | ⟨h1, h2⟩)
    · simp at h
    · rw [show deepestHeadingI (secItems ([] : List Flat)) = -1 from rfl] at h2
      omega
  simp only [List.nil_append]

theorem packGo_eq_claim (tok : String → Option (List String)) (maxT : Nat) :
    ∀ (secs : List SecT) (st : PackState),
      (∀ s ∈ secs, SecOKt s ∧ Headed s) → AccInv st →
      packGo tok maxT secs st = packClaimGo tok maxT secs st := by
  intro secs
  induction secs with
  | nil => intro st _ _; rfl
  | cons s rest ih =>
    intro st hsecs hAcc
    have hsOK := (hsecs s (by simp)).1
    have hsHd := (hsecs s (by simp)).2
    have hrest : ∀ x ∈ rest, SecOKt x ∧ Headed x := fun x hx =>
      hsecs x (by simp [hx])
    rw [packGo_cons, packClaimGo_cons]
    rw [secOK_W1 s.flats hsOK, hAcc.2]
    by_cases hcond :
        (countTokens tok (String.intercalate "\n" (st.texts ++ [s.text])) > maxT ∧
           st.texts.length > 0) ∨
        (0 ≤ firstHeadingLevelI (secItems s.flats) ∧
           firstHeadingLevelI (secItems s.flats) < deepestHeadingI (secItems st.flats))
    · rw [if_pos hcond, if_pos hcond]
      congr 1
      exact ih ⟨[s.text], s.flats⟩ hrest ⟨by simp, secOK_W2 s.flats hsOK⟩
    · rw [if_neg hcond, if_neg hcond]
      apply ih _ hrest
      refine ⟨by simp, ?_⟩
      show getHL (st.flats ++ s.flats) false
          = deepestHeadingI (secItems (st.flats ++ s.flats))
      rw [getHL_append_false st.flats s.flats hsOK.1, secOK_W2 s.flats hsOK]
      rw [show secItems (st.flats ++ s.flats)
            = secItems st.flats ++ secItems s.flats from by simp [secItems]]
      rw [deepest_append]
      have hge : deepestHeadingI (secItems st.flats)
          ≤ deepestHeadingI (secItems s.flats) := by
        obtain ⟨fn, tn, ln, hfl, hln, hfirst⟩ := headed_first_eq s hsHd
        have h0 : (0 : Int) ≤ firstHeadingLevelI (secItems s.flats) := by
          rw [hfirst]
          exact Int.ofNat_nonneg ln
        have hnb : ¬ (0 ≤ firstHeadingLevelI (secItems s.flats) ∧
            firstHeadingLevelI (secItems s.flats)
              < deepestHeadingI (secItems st.flats)) :=
          fun hb => hcond (Or.inr hb)
        have hfd := first_le_deepest (secItems s.flats)
        omega
      exact (max_eq_right hge).symm

theorem pack_eq_claim (tok : String → Option (List String)) (maxT : Nat)
    (secs : List SecT) (h1 : ∀ s ∈ secs, SecOKt s)
    (h2 : ∀ s ∈ secs.tail, Headed s) :
    pack tok maxT secs = packClaim tok maxT secs := by
  cases secs with
  | nil => rfl
  | cons s rest =>
    unfold pack packClaim
    rw [packGo_start, packClaimGo_start]
    exact packGo_eq_claim tok maxT rest ⟨[s.text], s.flats⟩
      (fun x hx => ⟨h1 x (by simp [hx]), h2 x hx⟩)
      ⟨by simp, secOK_W2 s.flats (h1 s (by simp))⟩

/-- Claim C3: on the pipeline's section lists, the token-bounded packer's
behavior is exactly the claim's: a new chunk starts iff the candidate token
count exceeds `max_tokens` with a non-empty accumulator, or
`0 ≤ current_section_level < accumulated_level` where
`current_section_level` is the first heading level inside the section (−1 if
none) and `accumulated_level` the deepest heading level already in the
accumulator (−1 if none); otherwise the section merges, and the remaining
accumulator is flushed after the loop. -/
theorem C3_packer_boundary_rule (tok : String → Option (List String))
    (maxT : Nat) (d : Doc) :
    pack tok maxT (sectionsOfDoc d) = packClaim tok maxT (sectionsOfDoc d) := by
  have hok := mergeOrphans_ok_main (preSections d)
    (preSections_ok d).1 (preSections_ok d).2
  exact pack_eq_claim tok maxT (sectionsOfDoc d) hok.1 hok.2

/-! ## C1: the budget property -/

theorem intercalate_single (x : String) : String.intercalate "\n" [x] = x := by
  show String.intercalate.go x "\n" [] = x
  unfold String.intercalate.go
  simp

theorem getCurrentChunk_cases (st : PackState) (c : Chunk)
    (hc : c ∈ (match getCurrentChunk st with
               | some x => [x]
               | none => ([] : List Chunk))) :
    st.texts ≠ [] ∧
    c = ⟨String.intercalate "\n" st.texts,
         extractUsedHeaders (st.flats.map Flat.snapS), st.flats.map Flat.item⟩ := by
  unfold getCurrentChunk at hc
  by_cases h : st.texts = []
  · rw [if_pos h] at hc
    cases hc
  · rw [if_neg h] at hc
    exact ⟨h, by simpa using hc⟩

theorem packGo_budget (tok : String → Option (List String)) (maxT : Nat)
    (P : SecT → Prop) :
    ∀ (secs : List SecT) (st : PackState),
      (∀ s ∈ secs, P s) →
      ((st.texts = [] ∧ st.flats = []) ∨
        (st.texts ≠ [] ∧
          countTokens tok (String.intercalate "\n" st.texts) ≤ maxT) ∨
        (∃ s, P s ∧ st.texts = [s.text] ∧ st.flats = s.flats)) →
      ∀ c ∈ packGo tok maxT secs st,
        countTokens tok c.text ≤ maxT ∨
        ∃ s, P s ∧ c.text = s.text ∧ c.items = secItems s.flats := by
  intro secs
  induction secs with
  | nil =>
    intro st hsecs hInv c hc
    simp only [packGo] at hc
    obtain ⟨hne, hcc⟩ := getCurrentChunk_cases st c hc
    rcases hInv with ⟨h1, _⟩ | ⟨_, hInv⟩ | ⟨s, hP, ht, hf⟩
    · exact absurd h1 hne
    · rw [hcc]
      exact Or.inl hInv
    · right
      refine ⟨s, hP, ?_, ?_⟩
      · rw [hcc, ht]
        exact intercalate_single s.text
      · rw [hcc, hf]
        rfl
  | cons s rest ih =>
    intro st hsecs hInv c hc
    have hrest : ∀ x ∈ rest, P x := fun x hx => hsecs x (by simp [hx])
    rw [packGo_cons] at hc
    by_cases hcond :
        (countTokens tok (String.intercalate "\n" (st.texts ++ [s.text])) > maxT ∧
           st.texts.length > 0) ∨
        (0 ≤ getHL s.flats true ∧ getHL s.flats true < getHL st.flats false)
    · rw [if_pos hcond] at hc
      rcases List.mem_append.mp hc with hc | hc
      · obtain ⟨hne, hcc⟩ := getCurrentChunk_cases st c hc
        rcases hInv with ⟨h1, _⟩ | ⟨_, hInv⟩ | ⟨sx, hP, ht, hf⟩
        · exact absurd h1 hne
        · rw [hcc]
          exact Or.inl hInv
        · right
          refine ⟨sx, hP, ?_, ?_⟩
          · rw [hcc, ht]
            exact intercalate_single sx.text
          · rw [hcc, hf]
            rfl
      · exact ih ⟨[s.text], s.flats⟩ hrest
          (Or.inr (Or.inr ⟨s, hsecs s (by simp), rfl, rfl⟩)) c hc
    · rw [if_neg hcond] at hc
      rcases hInv with ⟨h1, h2⟩ | ⟨hne, hInv⟩ | ⟨sx, hP, ht, hf⟩
      · refine ih ⟨st.texts ++ [s.text], st.flats ++ s.flats⟩ hrest
          (Or.inr (Or.inr ⟨s, hsecs s (by simp), ?_, ?_⟩)) c hc
        · rw [h1]
          rfl
        · rw [h2]
          rfl
      · refine ih ⟨st.texts ++ [s.text], st.flats ++ s.flats⟩ hrest
          (Or.inr (Or.inl ⟨by simp, ?_⟩)) c hc
        have hle : ¬ countTokens tok
            (String.intercalate "\n" (st.texts ++ [s.text])) > maxT := by
          intro hgt
          exact hcond (Or.inl ⟨hgt, by
            cases hx : st.texts with
            | nil => exact absurd hx hne
            | cons y ys => simp [hx]⟩)
        exact Nat.not_lt.mp hle
      · refine ih ⟨st.texts ++ [s.text], st.flats ++ s.flats⟩ hrest
          (Or.inr (Or.inl ⟨by simp, ?_⟩)) c hc
        have hne : st.texts ≠ [] := by
          rw [ht]
          simp
        have hle : ¬ countTokens tok
            (String.intercalate "\n" (st.texts ++ [s.text])) > maxT := by
          intro hgt
          exact hcond (Or.inl ⟨hgt, by
            cases hx : st.texts with
            | nil => exact absurd hx hne
            | cons y ys => simp [hx]⟩)
        exact Nat.not_lt.mp hle

/-- Claim C1, amended: every emitted chunk either fits the token budget, or
consists of a single post-merge section emitted whole — its text is exactly
that section's rendered text and its items are the section's items.  (The
packer of `intelligent_processor_law.py` never invokes any oversized-content
splitter; `_split_table_text` is dead code there.) -/
theorem C1_budget_or_single_section (tok : String → Option (List String))
    (maxT : Nat) (d : Doc) (c : Chunk) (hc : c ∈ hybridChunk tok maxT d) :
    countTokens tok c.text ≤ maxT ∨
    ∃ s ∈ sectionsOfDoc d, c.text = s.text ∧ c.items = secItems s.flats := by
  rw [show hybridChunk tok maxT d
        = if flatten d = [] then []
          else splitDocumentByTokens tok maxT (flatten d) from rfl] at hc
  by_cases h : flatten d = []
  · rw [if_pos h] at hc
    cases hc
  · rw [if_neg h] at hc
    unfold splitDocumentByTokens at hc
    rw [if_neg h] at hc
    have hres := packGo_budget tok maxT (fun s => s ∈ sectionsOfDoc d)
      (sectionsOfDoc d) ⟨[], []⟩ (fun s hs => hs) (Or.inl ⟨rfl, rfl⟩) c hc
    rcases hres with hres | ⟨s, hP, h1, h2⟩
    · exact Or.inl hres
    · exact Or.inr ⟨s, hP, h1, h2⟩

/-- Witness for C1's amended theorem: the oversized single-section chunk of a
two-paragraph document under a 3-token budget. -/
theorem C1_witness :
    (Chunk.mk "a b c\nd e" none
        [.text 1 .plain "a b c" "a b c", .text 2 .plain "d e" "d e"]) ∈
      hybridChunk (fun s => some (pyWords s)) 3
        ⟨[.text 1 .plain "a b c" "a b c", .text 2 .plain "d e" "d e"], []⟩ ∧
    (countTokens (fun s => some (pyWords s)) "a b c\nd e" ≤ 3 ∨
      ∃ s ∈ sectionsOfDoc
          ⟨[.text 1 .plain "a b c" "a b c", .text 2 .plain "d e" "d e"], []⟩,
        ("a b c\nd e" : String) = s.text ∧
        [Item.text 1 .plain "a b c" "a b c", Item.text 2 .plain "d e" "d e"]
          = secItems s.flats) :=
  ⟨by decide,
   C1_budget_or_single_section (fun s => some (pyWords s)) 3
     ⟨[.text 1 .plain "a b c" "a b c", .text 2 .plain "d e" "d e"], []⟩
     (Chunk.mk "a b c\nd e" none
        [.text 1 .plain "a b c" "a b c", .text 2 .plain "d e" "d e"])
     (by decide)⟩

/-- Counterexample for C1 as frozen: with a whitespace tokenizer and
`max_tokens = 3`, a two-paragraph document yields a single chunk of 5 tokens
carrying both whole items and the unsplit section text — no oversized-content
splitter runs, and the oversized chunk is neither a single row nor a
sub-piece. -/
theorem C1_counterexample :
    hybridChunk (fun s => some (pyWords s)) 3
        ⟨[.text 1 .plain "a b c" "a b c", .text 2 .plain "d e" "d e"], []⟩
      = [⟨"a b c\nd e", none,
          [.text 1 .plain "a b c" "a b c", .text 2 .plain "d e" "d e"]⟩] ∧
    countTokens (fun s => some (pyWords s)) "a b c\nd e" = 5 ∧ 5 > 3 ∧
    ([Item.text 1 .plain "a b c" "a b c", Item.text 2 .plain "d e" "d e"].length
      = 2) :=
  ⟨by decide, by decide, by decide, by decide⟩

/-! ## C8: the empty-document placeholder -/

theorem foldl_cons_rev {α β : Type} (g : α → β) :
    ∀ (ts : List α) (acc : List β),
      ts.foldl (fun a t => g t :: a) acc = (ts.reverse.map g) ++ acc := by
  intro ts
  induction ts with
  | nil => intro acc; simp
  | cons t ts ih =>
    intro acc
    simp [List.foldl, ih, List.reverse_cons]

theorem mainFlat_items : ∀ (its : List Item) (cur curS : HM),
    (mainFlat cur curS its).map Flat.item = its := by
  intro its
  induction its with
  | nil => intro cur curS; rfl
  | cons it rest ih => intro cur curS; simp [mainFlat, ih]

theorem flatten_ne_nil_of_items (d : Doc) (h : d.items ≠ []) :
    flatten d ≠ [] := by
  intro hcontra
  have h2 : secItems (flatten d) = [] := by
    rw [hcontra]
    rfl
  unfold flatten at h2
  rw [foldl_cons_rev] at h2
  rw [show secItems (((missingTables d).reverse.map tblFlat)
        ++ mainFlat [] [] d.items)
      = secItems ((missingTables d).reverse.map tblFlat)
        ++ secItems (mainFlat [] [] d.items) from by simp [secItems]] at h2
  have h3 := List.append_eq_nil.mp h2
  have h4 : secItems (mainFlat [] [] d.items) = d.items := mainFlat_items d.items [] []
  rw [h4] at h3
  exact h (h3.2)

theorem placeholder_in_flatten (d : Doc) :
    placeholderItem ∈ secItems (flatten ⟨d.items ++ [placeholderItem], d.tables⟩) := by
  unfold flatten
  rw [foldl_cons_rev]
  rw [show secItems (((missingTables ⟨d.items ++ [placeholderItem], d.tables⟩).reverse.map tblFlat)
        ++ mainFlat [] [] (d.items ++ [placeholderItem]))
      = secItems ((missingTables ⟨d.items ++ [placeholderItem], d.tables⟩).reverse.map tblFlat)
        ++ secItems (mainFlat [] [] (d.items ++ [placeholderItem])) from by simp [secItems]]
  apply List.mem_append.mpr
  right
  rw [show secItems (mainFlat [] [] (d.items ++ [placeholderItem]))
        = d.items ++ [placeholderItem] from mainFlat_items _ [] []]
  simp

/-- Claim C8, amended: when the document has no item with usable text, the
pipeline appends one placeholder text item (text `"."`) and chunks the
result; the chunk list is non-empty and carries the placeholder among its
`source_items`.  Only when the document has no items at all is the result
exactly one chunk with text `"."` and a single source item; pre-existing
textless items (pictures, empty tables) are chunked along with the
placeholder, so in general the single chunk's text and item count differ from
the bare placeholder. -/
theorem C8_placeholder_amended (tok : String → Option (List String)) (d : Doc)
    (h : hasTextItems d = false) :
    processDocument tok d
      = hybridChunk tok 1000 ⟨d.items ++ [placeholderItem], d.tables⟩ ∧
    processDocument tok d ≠ [] ∧
    placeholderItem ∈ ((processDocument tok d).map Chunk.items).flatten ∧
    (d.items = [] → d.tables = [] →
      processDocument tok d = [⟨".", none, [placeholderItem]⟩]) := by
  have heq : processDocument tok d
      = hybridChunk tok 1000 ⟨d.items ++ [placeholderItem], d.tables⟩ := by
    unfold processDocument
    rw [if_neg (by simp [h])]
  have hcov := hybrid_items_flatten tok 1000 ⟨d.items ++ [placeholderItem], d.tables⟩
  have hmem : placeholderItem
      ∈ ((processDocument tok d).map Chunk.items).flatten := by
    rw [heq, hcov]
    exact placeholder_in_flatten d
  refine ⟨heq, ?_, hmem, ?_⟩
  · intro hcontra
    rw [hcontra] at hmem
    cases hmem
  · intro h1 h2
    obtain ⟨items, tables⟩ := d
    simp only at h1 h2
    subst h1
    subst h2
    rw [heq]
    rw [show ([] : List Item) ++ [placeholderItem] = [placeholderItem] from rfl]
    rw [show hybridChunk tok 1000 ⟨[placeholderItem], []⟩
          = pack tok 1000 (mergeOrphans
              ((segment (flatten ⟨[placeholderItem], []⟩)).map mkSec)) from by
        rw [show hybridChunk tok 1000 ⟨[placeholderItem], []⟩
              = if flatten ⟨[placeholderItem], []⟩ = [] then []
                else splitDocumentByTokens tok 1000
                  (flatten ⟨[placeholderItem], []⟩) from rfl]
        rw [if_neg (by decide)]
        unfold splitDocumentByTokens
        rw [if_neg (by decide)]]
    rw [show mergeOrphans ((segment (flatten ⟨[placeholderItem], []⟩)).map mkSec)
          = [⟨".", [⟨placeholderItem, [], []⟩]⟩] from by decide]
    unfold pack
    rw [packGo_start]
    show (match getCurrentChunk ⟨["."], [⟨placeholderItem, [], []⟩]⟩ with
          | some c => [c]
          | none => []) = _
    rw [show getCurrentChunk ⟨["."], [⟨placeholderItem, [], []⟩]⟩
          = some ⟨".", none, [placeholderItem]⟩ from by decide]

/-- Witness for C8's amended theorem at the empty document. -/
theorem C8_witness :
    hasTextItems (⟨[], []⟩ : Doc) = false ∧
    processDocument (fun s => some (pyWords s)) ⟨[], []⟩
      = [⟨".", none, [placeholderItem]⟩] :=
  ⟨by decide,
   (C8_placeholder_amended (fun s => some (pyWords s)) ⟨[], []⟩
     (by decide)).2.2.2 rfl rfl⟩

/-- Counterexample for C8 as frozen: a picture-only document has no usable
text, so the placeholder is synthesized — but the emitted chunk's
`source_items` has length 2 (picture plus placeholder) and its text is
`"\n."`, not the bare placeholder `"."`. -/
theorem C8_counterexample :
    hasTextItems ⟨[.picture 7], []⟩ = false ∧
    processDocument (fun s => some (pyWords s)) ⟨[.picture 7], []⟩
      = [⟨"\n.", none, [.picture 7, placeholderItem]⟩] ∧
    ([Item.picture 7, placeholderItem].length = 2) ∧ ("\n." : String) ≠ "." :=
  ⟨by decide, by decide, by decide, by decide⟩

/-! ## C10: missing-table reconciliation -/

/-- Claim C10: tables reachable only through the registry are inserted at
position 0 one by one, so the flattened list starts with them in reverse
registry order, each with empty header snapshots, followed by the
traversal-visited items in their original order. -/
theorem C10_missing_tables_prepended_reversed (d : Doc)
    (hk : missingTables d ≠ []) :
    flatten d = ((missingTables d).reverse.map tblFlat) ++ mainFlat [] [] d.items ∧
    (mainFlat [] [] d.items).map Flat.item = d.items := by
  constructor
  · unfold flatten
    exact foldl_cons_rev tblFlat (missingTables d) (mainFlat [] [] d.items)
  · exact mainFlat_items d.items [] []

/-- Witness for C10 at a concrete document with two unvisited tables. -/
theorem C10_witness :
    let d : Doc := ⟨[.text 1 .plain "x" "x"],
                    [⟨5, some "M1", none⟩, ⟨6, some "M2", none⟩]⟩
    flatten d = [tblFlat ⟨6, some "M2", none⟩, tblFlat ⟨5, some "M1", none⟩,
                 ⟨.text 1 .plain "x" "x", [], []⟩] ∧
    missingTables d ≠ [] := by
  intro d
  have h := C10_missing_tables_prepended_reversed d (by decide)
  refine ⟨?_, by decide⟩
  rw [h.1]
  decide

/-! ## C9: budget-unsatisfiable chunk is skipped with no chunk emitted -/

/-- Claim C9: in `_split_using_plain_text`, when the chunk's total token count
exceeds `max_tokens` and the available content budget
(`max_tokens - other_len`) is non-positive, the splitter returns the empty
list (the content is skipped, a warning is logged, nothing is raised). -/
theorem C9_zero_budget_skips_emission (tok2 : String → Nat)
    (ser : OcrChunker.Chunk2 → String) (semChunk : Int → String → List String)
    (maxT : Nat) (c : OcrChunker.Chunk2)
    (hover : (OcrChunker.docChunkLength tok2 ser c).totalLen > maxT)
    (hbudget : (maxT : Int) - (OcrChunker.docChunkLength tok2 ser c).otherLen ≤ 0) :
    OcrChunker.splitUsingPlainText tok2 ser semChunk maxT c = [] := by
  unfold OcrChunker.splitUsingPlainText
  rw [if_neg (by omega), if_pos hbudget]

/-! ## C7: the token counter -/

theorem countTokensGo_eq_buffers (tok : String → Option (List String)) :
    ∀ (lines : List String) (cur : String) (total : Nat),
      countTokensGo tok lines cur total =
        total + ((tokenBuffersGo lines cur).map (bufTokens tok)).sum := by
  intro lines
  induction lines with
  | nil =>
    intro cur total
    by_cases h : cur ≠ "" <;> simp [countTokensGo, tokenBuffersGo, h]
  | cons line rest ih =>
    intro cur total
    simp only [countTokensGo, tokenBuffersGo]
    by_cases h : (if cur ≠ "" then cur ++ "\n" ++ line else line).length ≤ 300
    · rw [if_pos h, if_pos h, ih]
    · rw [if_neg h, if_neg h]
      by_cases hc : cur ≠ "" <;> simp [hc, ih, Nat.add_assoc]

theorem tokenBuffersGo_cap (L0 : List String) :
    ∀ (lines : List String) (cur : String),
      (cur.length ≤ 300 ∨ cur ∈ L0) → (∀ l ∈ lines, l ∈ L0) →
      ∀ b ∈ tokenBuffersGo lines cur, b.length ≤ 300 ∨ b ∈ L0 := by
  intro lines
  induction lines with
  | nil =>
    intro cur hcur _ b hb
    simp only [tokenBuffersGo] at hb
    by_cases h : cur ≠ ""
    · simp [h] at hb
      subst hb
      exact hcur
    · simp [h] at hb
  | cons line rest ih =>
    intro cur hcur hlines b hb
    simp only [tokenBuffersGo] at hb
    by_cases h : (if cur ≠ "" then cur ++ "\n" ++ line else line).length ≤ 300
    · rw [if_pos h] at hb
      exact ih _ (Or.inl h) (fun l hl => hlines l (by simp [hl])) b hb
    · rw [if_neg h] at hb
      rcases List.mem_append.mp hb with hb | hb
      · by_cases hc : cur ≠ ""
        · simp [hc] at hb
          subst hb
          exact hcur
        · simp [hc] at hb
      · exact ih _ (Or.inr (hlines line (by simp)))
          (fun l hl => hlines l (by simp [hl])) b hb

/-- Claim C7, amended: the count is the sum, over the greedily accumulated
line buffers, of the per-buffer token count, where a failing buffer
contributes the truncated estimate `⌊word_count · 1.3⌋` (not the rounded
one); every buffer either fits in 300 characters or is a single input line.
The counter is a total function into `Nat`, so it never raises and is
non-negative. -/
theorem C7_token_counter_buffered (tok : String → Option (List String))
    (text : String) :
    countTokens tok text = ((tokenBuffers text).map (bufTokens tok)).sum ∧
    ∀ b ∈ tokenBuffers text, b.length ≤ 300 ∨ b ∈ pySplitOn '\n' text := by
  constructor
  · unfold countTokens tokenBuffers
    by_cases h : text = ""
    · simp [h]
    · rw [if_neg h, if_neg h, countTokensGo_eq_buffers]
      simp
  · intro b hb
    unfold tokenBuffers at hb
    by_cases h : text = ""
    · rw [if_pos h] at hb
      cases hb
    · rw [if_neg h] at hb
      exact tokenBuffersGo_cap _ _ _ (Or.inl (by decide)) (fun l hl => hl) b hb

/-- Witness for C7: a concrete text whose single buffer is the whole text. -/
theorem C7_witness :
    countTokens (fun _ => none) "a b\nc" =
      ((tokenBuffers "a b\nc").map (bufTokens (fun _ => none))).sum ∧
    ("a b\nc" ∈ tokenBuffers "a b\nc") ∧
    ((("a b\nc" : String).length ≤ 300) ∨ "a b\nc" ∈ pySplitOn '\n' "a b\nc") := by
  refine ⟨(C7_token_counter_buffered (fun _ => none) "a b\nc").1, by decide, ?_⟩
  exact (C7_token_counter_buffered (fun _ => none) "a b\nc").2 "a b\nc" (by decide)

set_option maxRecDepth 20000 in
/-- Counterexample for C7 as frozen: with a tokenizer that fails on every
buffer, the text `"a b c"` has one buffer of 3 words; the code contributes
`int(3 * 1.3) = 3` while the claim's `round(3 * 1.3)` is `4`.  Moreover a
single 301-character line is passed to the tokenizer as one 301-character
buffer, so the buffers are not capped at 300 characters: a tokenizer that
only fails on buffers longer than 300 characters is driven into the fallback
on that text. -/
theorem C7_counterexample :
    (countTokens (fun _ => none) "a b c" = 3 ∧
      round ((3 : ℚ) * (13 / 10)) = 4 ∧ (3 : ℤ) ≠ 4) ∧
    (tokenBuffers ⟨List.replicate 301 'x'⟩ = [⟨List.replicate 301 'x'⟩] ∧
      (⟨List.replicate 301 'x'⟩ : String).length = 301 ∧
      countTokens (fun s => if s.length ≤ 300 then some [] else none)
        ⟨List.replicate 301 'x'⟩ = 1) := by
  refine ⟨⟨by decide, ?_, by decide⟩, by decide, by decide, by decide⟩
  have h1 : (3 : ℚ) * (13 / 10) + 1 / 2 = 44 / 10 := by norm_num
  rw [round_eq, h1, Int.floor_eq_iff]
  norm_num

/-- Witness for C9: serialized overhead of 3 tokens with a budget of 2. -/
theorem C9_witness :
    (OcrChunker.docChunkLength String.length (fun c => "HHH" ++ c.text)
        ⟨"ab", ⟨none, none⟩⟩).totalLen > 2 ∧
    (2 : Int) - (OcrChunker.docChunkLength String.length (fun c => "HHH" ++ c.text)
        ⟨"ab", ⟨none, none⟩⟩).otherLen ≤ 0 ∧
    OcrChunker.splitUsingPlainText String.length (fun c => "HHH" ++ c.text)
        (fun _ s => [s]) 2 ⟨"ab", ⟨none, none⟩⟩ = [] := by
  refine ⟨by decide, by decide, ?_⟩
  exact C9_zero_budget_skips_emission _ _ _ _ _ (by decide) (by decide)

end DocParser

